import Mathlib

/-!
Verification of the PolyLens chain-to-analytics pipeline.

This file gives a shallow embedding, in Lean 4, of the components of the
PolyLens backend that the specification describes: the CTF token-id
derivation (`src/core/ctf_utils.py`), the trade decoder and log-scanning
indexer (`src/core/indexer.py`), the persistent store upserts
(`src/core/db/store.py`), the whale detector
(`src/dashboard/whale_detector.py`), the buy/sell pressure metric
(`src/core/metrics.py`) and the sync scheduler (`src/scheduler/jobs.py`).
Python integers are modelled as `Nat`, float ratios as exact rationals
(`Rat`), fallible operations as `Option`, and the SQLite connection as an
explicit committed-state / open-transaction pair.  Theorems at the end of
each section settle the specification claims against these embeddings.
-/

set_option maxRecDepth 8000

/-! ## Fast modular exponentiation

`pow(a, e, m)` from Python is embedded as a fuel-driven square-and-multiply
so that the kernel can evaluate it on 254-bit exponents. -/

def powModAux : Nat → Nat → Nat → Nat → Nat
  | 0, _, _, m => 1 % m
  | fuel + 1, a, e, m =>
    if e = 0 then 1 % m
    else
      let h := powModAux fuel a (e / 2) m
      if e % 2 = 0 then h * h % m else h * h % m * (a % m) % m

/-- Python's built-in three-argument `pow`: `powMod a e m = a ^ e % m`
(for exponents below `2 ^ 300`, which covers every use in this file). -/
def powMod (a e m : Nat) : Nat := powModAux 300 a e m

theorem powModAux_eq (fuel : Nat) :
    ∀ a e m, e < 2 ^ fuel → powModAux fuel a e m = a ^ e % m := by
  induction fuel with
  | zero =>
    intro a e m he
    interval_cases e
    simp [powModAux]
  | succ f ih =>
    intro a e m he
    rw [powModAux]
    by_cases h0 : e = 0
    · simp [h0]
    · simp only [h0, if_false]
      have hdiv : e / 2 < 2 ^ f := by
        have h2 : 2 ^ (f + 1) = 2 * 2 ^ f := by ring
        omega
      have hrec := ih a (e / 2) m hdiv
      by_cases hpar : e % 2 = 0
      · simp only [hpar, if_true]
        have he2 : e = e / 2 + e / 2 := by omega
        conv_rhs => rw [he2, pow_add, Nat.mul_mod]
        rw [hrec]
      · simp only [hpar, if_false]
        have he2 : e = e / 2 + e / 2 + 1 := by omega
        conv_rhs => rw [he2, pow_add, pow_add, pow_one, Nat.mul_mod, Nat.mul_mod (a ^ (e / 2))]
        rw [hrec]

theorem powMod_eq (a e m : Nat) (he : e < 2 ^ 300) : powMod a e m = a ^ e % m :=
  powModAux_eq 300 a e m he

theorem powMod_lt (a e m : Nat) (hm : 0 < m) (he : e < 2 ^ 300) : powMod a e m < m := by
  rw [powMod_eq a e m he]
  exact Nat.mod_lt _ hm

/-! ## Primality of the alt-bn128 base-field prime

The hash-to-curve equivalence proof below needs Fermat's little theorem
modulo `P`, hence a primality certificate for `P`.  We verify a Lucas
certificate chain: for each prime a witness `a` of order `p - 1`, together
with the full factorisation of `p - 1`. -/

theorem castPow_eq_cast_powMod (p a e : ℕ) (he : e < 2 ^ 300) :
    ((a : ℕ) : ZMod p) ^ e = ((powMod a e p : ℕ) : ZMod p) := by
  rw [powMod_eq a e p he, ZMod.natCast_mod, Nat.cast_pow]

theorem list_prime_dvd_prod_mem :
    ∀ (l : List ℕ), (∀ r ∈ l, Nat.Prime r) → ∀ q, Nat.Prime q → q ∣ l.prod → q ∈ l := by
  intro l
  induction l with
  | nil =>
    intro _ q hq hdv
    simp only [List.prod_nil, Nat.dvd_one] at hdv
    exact absurd hdv hq.ne_one
  | cons x xs ih =>
    intro hl q hq hdv
    rw [List.prod_cons] at hdv
    rcases (Nat.Prime.dvd_mul hq).mp hdv with h | h
    · have hx := hl x (List.mem_cons_self x xs)
      exact List.mem_cons.mpr (Or.inl ((Nat.prime_dvd_prime_iff_eq hq hx).mp h))
    · exact List.mem_cons.mpr (Or.inr (ih (fun r hr => hl r (List.mem_cons_of_mem x hr)) q hq h))

theorem lucas_cert (p a : ℕ) (l : List ℕ)
    (hbound : p - 1 < 2 ^ 300)
    (hprod : p - 1 = l.prod)
    (hl : ∀ r ∈ l, Nat.Prime r)
    (ha : powMod a (p - 1) p % p = 1 % p)
    (hne : ∀ q ∈ l.dedup, ¬ (powMod a ((p - 1) / q) p % p = 1 % p)) :
    Nat.Prime p := by
  apply lucas_primality p ((a : ℕ) : ZMod p)
  · rw [castPow_eq_cast_powMod p a (p - 1) hbound]
    have h1 : ((powMod a (p - 1) p : ℕ) : ZMod p) = ((1 : ℕ) : ZMod p) :=
      (ZMod.natCast_eq_natCast_iff' _ _ _).mpr ha
    simpa using h1
  · intro q hq hdv
    rw [hprod] at hdv
    have hmem : q ∈ l := list_prime_dvd_prod_mem l hl q hq hdv
    have hne' := hne q (List.mem_dedup.mpr hmem)
    intro hcontra
    apply hne'
    rw [castPow_eq_cast_powMod p a ((p - 1) / q)
      (lt_of_le_of_lt (Nat.div_le_self _ _) hbound)] at hcontra
    exact (ZMod.natCast_eq_natCast_iff' _ _ _).mp (by simpa using hcontra)

theorem prime_173171039 : Nat.Prime 173171039 :=
  lucas_cert 173171039 13 [2, 73, 89, 13327]
    (by norm_num) (by decide)
    (by intro r hr; fin_cases hr <;> norm_num)
    (by decide) (by decide)

theorem prime_405928799 : Nat.Prime 405928799 :=
  lucas_cert 405928799 22 [2, 11, 3691, 4999]
    (by norm_num) (by decide)
    (by intro r hr; fin_cases hr <;> norm_num)
    (by decide) (by decide)

theorem prime_1263766531 : Nat.Prime 1263766531 :=
  lucas_cert 1263766531 10 [2, 3, 5, 13, 911, 3557]
    (by norm_num) (by decide)
    (by intro r hr; fin_cases hr <;> norm_num)
    (by decide) (by decide)

theorem prime_11465965001 : Nat.Prime 11465965001 :=
  lucas_cert 11465965001 3 [2, 2, 2, 5, 5, 5, 5, 7, 327599]
    (by norm_num) (by decide)
    (by intro r hr; fin_cases hr <;> norm_num)
    (by decide) (by decide)

theorem prime_35385462869 : Nat.Prime 35385462869 :=
  lucas_cert 35385462869 2 [2, 2, 7, 1263766531]
    (by norm_num) (by decide)
    (by intro r hr; fin_cases hr <;> first | exact prime_1263766531 | norm_num)
    (by decide) (by decide)

theorem prime_2480874801745591 : Nat.Prime 2480874801745591 :=
  lucas_cert 2480874801745591 6 [2, 3, 3, 5, 19, 41, 35385462869]
    (by norm_num) (by decide)
    (by intro r hr; fin_cases hr <;> first | exact prime_35385462869 | norm_num)
    (by decide) (by decide)

theorem prime_13427688667394608761327070753331941386769 :
    Nat.Prime 13427688667394608761327070753331941386769 :=
  lucas_cert 13427688667394608761327070753331941386769 17
    [2, 2, 2, 2, 3, 7, 11, 1853641, 4562087, 173171039, 2480874801745591]
    (by norm_num) (by decide)
    (by intro r hr; fin_cases hr <;>
      first | exact prime_173171039 | exact prime_2480874801745591 | norm_num)
    (by decide) (by decide)

theorem prime_alt_bn128 :
    Nat.Prime 21888242871839275222246405745257275088696311157297823662689037894645226208583 :=
  lucas_cert 21888242871839275222246405745257275088696311157297823662689037894645226208583 3
    [2, 3, 3, 13, 29, 67, 229, 311, 983, 11003, 405928799, 11465965001,
      13427688667394608761327070753331941386769]
    (by norm_num) (by decide)
    (by intro r hr; fin_cases hr <;>
      first
        | exact prime_405928799
        | exact prime_11465965001
        | exact prime_13427688667394608761327070753331941386769
        | norm_num)
    (by decide) (by decide)

/-! ## Keccak-256

`eth_utils.keccak` used by `ctf_utils.py`: the original Keccak-256 (pad
byte `0x01`, final bit `0x80`), on byte lists.  The 1600-bit state is a
25-element list of 64-bit lanes, index `i = x + 5 * y`. -/

namespace Keccak

def mask64 : Nat := 2 ^ 64 - 1

def rotl (x n : Nat) : Nat := ((x <<< n) ||| (x >>> (64 - n))) &&& mask64

def rcList : List Nat :=
  [0x0000000000000001, 0x0000000000008082, 0x800000000000808a, 0x8000000080008000,
   0x000000000000808b, 0x0000000080000001, 0x8000000080008081, 0x8000000000008009,
   0x000000000000008a, 0x0000000000000088, 0x0000000080008009, 0x000000008000000a,
   0x000000008000808b, 0x800000000000008b, 0x8000000000008089, 0x8000000000008003,
   0x8000000000008002, 0x8000000000000080, 0x000000000000800a, 0x800000008000000a,
   0x8000000080008081, 0x8000000000008080, 0x0000000080000001, 0x8000000080008008]

def rotOffRows : List (List Nat) :=
  [[0, 1, 62, 28, 27],
   [36, 44, 6, 55, 20],
   [3, 10, 43, 25, 39],
   [41, 45, 15, 21, 8],
   [18, 2, 61, 56, 14]]

def rotOff : List Nat := rotOffRows.flatten

/-- Lane lookup in a 25-lane state. -/
def lane (st : List Nat) (i : Nat) : Nat := st.getD i 0

def theta (st : List Nat) : List Nat :=
  let c : Nat → Nat := fun x =>
    lane st x ^^^ lane st (x + 5) ^^^ lane st (x + 10) ^^^ lane st (x + 15) ^^^ lane st (x + 20)
  let d : Nat → Nat := fun x => c ((x + 4) % 5) ^^^ rotl (c ((x + 1) % 5)) 1
  (List.range 25).map (fun i => lane st i ^^^ d (i % 5))

def rhoPi (st : List Nat) : List Nat :=
  (List.range 25).foldl
    (fun acc i =>
      let x := i % 5
      let y := i / 5
      acc.set (y + 5 * ((2 * x + 3 * y) % 5)) (rotl (lane st i) (rotOff.getD i 0)))
    (List.replicate 25 0)

def chi (st : List Nat) : List Nat :=
  (List.range 25).map (fun i =>
    let x := i % 5
    let y := i / 5
    lane st i ^^^ ((mask64 ^^^ lane st ((x + 1) % 5 + 5 * y)) &&& lane st ((x + 2) % 5 + 5 * y)))

def keccakRound (st : List Nat) (rc : Nat) : List Nat :=
  let a := chi (rhoPi (theta st))
  a.set 0 (lane a 0 ^^^ rc)

def keccakF (st : List Nat) : List Nat :=
  rcList.foldl keccakRound st

def bytesToLaneLE (bs : List Nat) : Nat :=
  bs.foldr (fun b acc => acc * 256 + b) 0

def laneToBytesLE (l : Nat) : List Nat :=
  (List.range 8).map (fun k => l / 256 ^ k % 256)

def xorBlock (st : List Nat) (block : List Nat) : List Nat :=
  (List.range 25).map (fun i =>
    if i < 17 then lane st i ^^^ bytesToLaneLE ((block.drop (8 * i)).take 8) else lane st i)

def pad (msg : List Nat) : List Nat :=
  let padLen := 136 - msg.length % 136
  if padLen = 1 then msg ++ [0x81]
  else msg ++ [0x01] ++ List.replicate (padLen - 2) 0 ++ [0x80]

def absorb (st : List Nat) (msg : List Nat) : List Nat :=
  if h : msg = [] then st
  else absorb (keccakF (xorBlock st (msg.take 136))) (msg.drop 136)
  termination_by msg.length
  decreasing_by
    have hpos : 0 < msg.length := List.length_pos.mpr h
    simp only [List.length_drop]
    omega

/-- Keccak-256 digest (32 bytes) of a byte list.  Checked during
development against the standard vectors for `""` and `"abc"`. -/
def keccak256 (msg : List Nat) : List Nat :=
  let st := absorb (List.replicate 25 0) (pad msg)
  laneToBytesLE (lane st 0) ++ laneToBytesLE (lane st 1) ++
    laneToBytesLE (lane st 2) ++ laneToBytesLE (lane st 3)

end Keccak

/-! ## C1: CTF token-id derivation (`src/core/ctf_utils.py`) -/

namespace CTF

def ALT_BN128_P : ℕ :=
  21888242871839275222246405745257275088696311157297823662689037894645226208583

def ALT_BN128_B : ℕ := 3

def ODD_TOGGLE : ℕ := 2 ^ 254

theorem ALT_BN128_P_prime : Nat.Prime ALT_BN128_P := prime_alt_bn128

/-- `_mod_sqrt(a, p)`: simplified Tonelli–Shanks for `p ≡ 3 (mod 4)`. -/
def modSqrt (a p : ℕ) : Option ℕ :=
  if a = 0 then some 0
  else if powMod a ((p - 1) / 2) p ≠ 1 then none
  else some (powMod a ((p + 1) / 4) p)

/-- Acceptance test applied to `yy = x³ + 3 mod P`: `_mod_sqrt` returns a
`y` and `y * y % P == yy`. -/
def sqrtCheck (yy : ℕ) : Bool :=
  match modSqrt yy ALT_BN128_P with
  | none => false
  | some y => y * y % ALT_BN128_P == yy

/-- Loop-exit test of `calculate_collection_ids_ec` on a candidate `x`. -/
def goodX (x : ℕ) : Bool :=
  sqrtCheck ((powMod x 3 ALT_BN128_P + ALT_BN128_B) % ALT_BN128_P)

/-- The `while True` search: step to `(x + 1) % P` until `goodX`.  The
fuel `ALT_BN128_P` is enough to visit every residue once. -/
def searchX : ℕ → ℕ → ℕ
  | 0, x => (x + 1) % ALT_BN128_P
  | fuel + 1, x =>
    let x1 := (x + 1) % ALT_BN128_P
    if goodX x1 then x1 else searchX fuel x1

def findX (x : ℕ) : ℕ := searchX ALT_BN128_P x

/-- Big-endian serialisation to `n` bytes (`int.to_bytes(n, "big")`). -/
def toBytesBE (n v : ℕ) : List ℕ :=
  (List.range n).map (fun k => v / 256 ^ (n - 1 - k) % 256)

/-- `int.from_bytes(bs, "big")`. -/
def fromBytesBE (bs : List ℕ) : ℕ :=
  bs.foldl (fun acc b => acc * 256 + b) 0

/-- Body of the `for i in range(1, outcome_slot_count + 1)` loop of
`calculate_collection_ids_ec`: the collection id for outcome index `i`,
as its 32-byte big-endian serialisation. -/
def collectionIdEc (conditionBytes : List ℕ) (i : ℕ) : List ℕ :=
  let initHash := Keccak.keccak256 (conditionBytes ++ toBytesBE 32 i)
  let odd : Bool := decide (128 ≤ initHash.headD 0)
  let x := fromBytesBE initHash % ALT_BN128_P
  let xg := findX x
  let ecHash := if odd then xg ^^^ ODD_TOGGLE else xg
  toBytesBE 32 ecHash

/-- `calculate_collection_ids_ec(condition_id, outcome_slot_count)` with the
conditionId given as its 32 bytes. -/
def calculateCollectionIdsEc (conditionBytes : List ℕ) (outcomeSlotCount : ℕ) : List (List ℕ) :=
  (List.range' 1 outcomeSlotCount).map (collectionIdEc conditionBytes)

/-- `calculate_position_ids_ec`: position ids as numbers (the Python code
renders them with `str`, which is injective on naturals). -/
def calculatePositionIdsEc (conditionBytes collateralBytes : List ℕ)
    (outcomeSlotCount : ℕ) : List ℕ :=
  (calculateCollectionIdsEc conditionBytes outcomeSlotCount).map
    (fun cid => fromBytesBE (Keccak.keccak256 (collateralBytes ++ cid)))

structure TokenIds where
  yesTokenId : ℕ
  noTokenId : ℕ
  collateralToken : Fin (2 ^ 160)
deriving DecidableEq

/-- `calculate_token_ids(condition_id, is_neg_risk)`; the two collateral
addresses come from the configuration, so they are passed explicitly. -/
def calculateTokenIds (conditionId : Fin (2 ^ 256)) (isNegRisk : Bool)
    (usdcE wrappedCollateral : Fin (2 ^ 160)) : TokenIds :=
  let collateral := if isNegRisk then wrappedCollateral else usdcE
  let pids := calculatePositionIdsEc (toBytesBE 32 conditionId.val)
    (toBytesBE 20 collateral.val) 2
  { yesTokenId := pids.getD 0 0
    noTokenId := pids.getD 1 0
    collateralToken := collateral }

/-! Specification-side algorithm, transcribed from the spec's wording:
"repeat `x ← x + 1 mod P` until `x³ + 3 mod P` has a square root in the
field"; `collectionId = x XOR (odd << 254)`. -/

def specHasSqrt (yy : ℕ) : Prop :=
  ∃ y, y < ALT_BN128_P ∧ y * y % ALT_BN128_P = yy

instance : DecidablePred specHasSqrt := fun yy => by
  unfold specHasSqrt
  infer_instance

def specSearchX : ℕ → ℕ → ℕ
  | 0, x => (x + 1) % ALT_BN128_P
  | fuel + 1, x =>
    let x1 := (x + 1) % ALT_BN128_P
    if specHasSqrt ((x1 ^ 3 + 3) % ALT_BN128_P) then x1 else specSearchX fuel x1

def specFindX (x : ℕ) : ℕ := specSearchX ALT_BN128_P x

/-- The claim's algorithm for `calculate_token_ids`, written from the
specification text. -/
def specPositionId (conditionBytes collateralBytes : List ℕ) (i : ℕ) : ℕ :=
  let h := Keccak.keccak256 (conditionBytes ++ toBytesBE 32 i)
  let odd : Bool := decide (128 ≤ h.headD 0)
  let x := specFindX (fromBytesBE h % ALT_BN128_P)
  let collectionId := toBytesBE 32 (x ^^^ (if odd then 1 <<< 254 else 0))
  fromBytesBE (Keccak.keccak256 (collateralBytes ++ collectionId))

def specTokenIds (conditionId : Fin (2 ^ 256)) (isNegRisk : Bool)
    (usdcE wrappedCollateral : Fin (2 ^ 160)) : TokenIds :=
  let collateral := if isNegRisk then wrappedCollateral else usdcE
  { yesTokenId := specPositionId (toBytesBE 32 conditionId.val) (toBytesBE 20 collateral.val) 1
    noTokenId := specPositionId (toBytesBE 32 conditionId.val) (toBytesBE 20 collateral.val) 2
    collateralToken := collateral }

theorem sqrtCheck_iff (yy : ℕ) (hlt : yy < ALT_BN128_P) :
    sqrtCheck yy = true ↔ specHasSqrt yy := by
  have hP : Nat.Prime ALT_BN128_P := ALT_BN128_P_prime
  have hPpos : 0 < ALT_BN128_P := hP.pos
  have hP1 : 1 < ALT_BN128_P := hP.one_lt
  by_cases h0 : yy = 0
  · subst h0
    constructor
    · intro _
      exact ⟨0, hPpos, by simp⟩
    · intro _
      simp [sqrtCheck, modSqrt]
  · by_cases hE : powMod yy ((ALT_BN128_P - 1) / 2) ALT_BN128_P = 1
    · have hy0 : modSqrt yy ALT_BN128_P
          = some (powMod yy ((ALT_BN128_P + 1) / 4) ALT_BN128_P) := by
        simp [modSqrt, h0, hE]
      have hkey : powMod yy ((ALT_BN128_P + 1) / 4) ALT_BN128_P
          * powMod yy ((ALT_BN128_P + 1) / 4) ALT_BN128_P % ALT_BN128_P = yy := by
        rw [powMod_eq _ _ _ (by decide), ← Nat.mul_mod, ← pow_add,
          show (ALT_BN128_P + 1) / 4 + (ALT_BN128_P + 1) / 4
            = (ALT_BN128_P - 1) / 2 + 1 from by decide,
          pow_succ, Nat.mul_mod]
        have hEpow : yy ^ ((ALT_BN128_P - 1) / 2) % ALT_BN128_P = 1 := by
          rw [← powMod_eq _ _ _ (by decide)]
          exact hE
        rw [hEpow, one_mul, Nat.mod_mod_of_dvd _ dvd_rfl]
        exact Nat.mod_eq_of_lt hlt
      constructor
      · intro _
        exact ⟨powMod yy ((ALT_BN128_P + 1) / 4) ALT_BN128_P,
          powMod_lt _ _ _ hPpos (by decide), hkey⟩
      · intro _
        simp only [sqrtCheck, hy0, beq_iff_eq]
        exact hkey
    · have hnone : modSqrt yy ALT_BN128_P = none := by
        simp [modSqrt, h0, hE]
      simp only [sqrtCheck, hnone, Bool.false_eq_true, false_iff]
      rintro ⟨y, hylt, hysq⟩
      have hyne : ¬ (ALT_BN128_P ∣ y) := by
        intro hdvd
        have hy0 : y = 0 := Nat.eq_zero_of_dvd_of_lt hdvd hylt
        apply h0
        rw [← hysq, hy0]
        simp
      haveI : Fact (Nat.Prime ALT_BN128_P) := ⟨hP⟩
      have hcast : ((y : ℕ) : ZMod ALT_BN128_P) ≠ 0 := by
        intro hc
        exact hyne ((ZMod.natCast_zmod_eq_zero_iff_dvd y ALT_BN128_P).mp hc)
      have hfermat := ZMod.pow_card_sub_one_eq_one hcast
      have hnat : y ^ (ALT_BN128_P - 1) % ALT_BN128_P = 1 % ALT_BN128_P := by
        have hc : ((y ^ (ALT_BN128_P - 1) : ℕ) : ZMod ALT_BN128_P)
            = ((1 : ℕ) : ZMod ALT_BN128_P) := by
          push_cast
          exact hfermat
        exact (ZMod.natCast_eq_natCast_iff' _ _ _).mp hc
      apply hE
      rw [powMod_eq _ _ _ (by decide), ← hysq, ← Nat.pow_mod,
        show (y * y) ^ ((ALT_BN128_P - 1) / 2) = y ^ (ALT_BN128_P - 1) from by
          rw [← pow_two, ← pow_mul,
            show 2 * ((ALT_BN128_P - 1) / 2) = ALT_BN128_P - 1 from by decide],
        hnat]
      exact Nat.mod_eq_of_lt hP1

theorem goodX_iff (x : ℕ) :
    goodX x = true ↔ specHasSqrt ((x ^ 3 + 3) % ALT_BN128_P) := by
  have hyyeq : (powMod x 3 ALT_BN128_P + ALT_BN128_B) % ALT_BN128_P
      = (x ^ 3 + 3) % ALT_BN128_P := by
    rw [powMod_eq x 3 _ (by norm_num)]
    simp only [ALT_BN128_B]
    exact Nat.mod_add_mod _ _ _
  rw [goodX, hyyeq]
  exact sqrtCheck_iff _ (Nat.mod_lt _ ALT_BN128_P_prime.pos)

theorem searchX_eq_specSearchX : ∀ fuel x, searchX fuel x = specSearchX fuel x := by
  intro fuel
  induction fuel with
  | zero => intro x; rfl
  | succ f ih =>
    intro x
    simp only [searchX, specSearchX]
    by_cases h : goodX ((x + 1) % ALT_BN128_P) = true
    · simp [h, (goodX_iff _).mp h]
    · have hs : ¬ specHasSqrt ((((x + 1) % ALT_BN128_P) ^ 3 + 3) % ALT_BN128_P) :=
        fun hc => h ((goodX_iff _).mpr hc)
      simp [h, hs, ih]

theorem findX_eq_specFindX (x : ℕ) : findX x = specFindX x :=
  searchX_eq_specSearchX _ x

theorem positionId_code_eq_spec (cb coll : List ℕ) (i : ℕ) :
    fromBytesBE (Keccak.keccak256 (coll ++ collectionIdEc cb i))
      = specPositionId cb coll i := by
  unfold collectionIdEc specPositionId
  generalize Keccak.keccak256 (cb ++ toBytesBE 32 i) = h
  simp only [findX_eq_specFindX]
  generalize specFindX (fromBytesBE h % ALT_BN128_P) = xg
  cases hodd : (decide (128 ≤ h.headD 0) : Bool)
  · simp
  · simp [ODD_TOGGLE, Nat.one_shiftLeft]

theorem collectionIds_two (cb : List ℕ) :
    calculateCollectionIdsEc cb 2 = [collectionIdEc cb 1, collectionIdEc cb 2] := by
  unfold calculateCollectionIdsEc
  rw [show List.range' 1 2 = [1, 2] from rfl]
  simp only [List.map_cons, List.map_nil]

theorem positionIds_two (cb coll : List ℕ) :
    calculatePositionIdsEc cb coll 2
      = [specPositionId cb coll 1, specPositionId cb coll 2] := by
  unfold calculatePositionIdsEc
  rw [collectionIds_two]
  simp only [List.map_cons, List.map_nil, positionId_code_eq_spec]

theorem calculateTokenIds_unfold (conditionId : Fin (2 ^ 256)) (isNegRisk : Bool)
    (usdcE wrappedCollateral : Fin (2 ^ 160)) :
    calculateTokenIds conditionId isNegRisk usdcE wrappedCollateral =
      { yesTokenId := (calculatePositionIdsEc (toBytesBE 32 conditionId.val)
          (toBytesBE 20 (if isNegRisk then wrappedCollateral else usdcE).val) 2).getD 0 0
        noTokenId := (calculatePositionIdsEc (toBytesBE 32 conditionId.val)
          (toBytesBE 20 (if isNegRisk then wrappedCollateral else usdcE).val) 2).getD 1 0
        collateralToken := if isNegRisk then wrappedCollateral else usdcE } := rfl

theorem specTokenIds_unfold (conditionId : Fin (2 ^ 256)) (isNegRisk : Bool)
    (usdcE wrappedCollateral : Fin (2 ^ 160)) :
    specTokenIds conditionId isNegRisk usdcE wrappedCollateral =
      { yesTokenId := specPositionId (toBytesBE 32 conditionId.val)
          (toBytesBE 20 (if isNegRisk then wrappedCollateral else usdcE).val) 1
        noTokenId := specPositionId (toBytesBE 32 conditionId.val)
          (toBytesBE 20 (if isNegRisk then wrappedCollateral else usdcE).val) 2
        collateralToken := if isNegRisk then wrappedCollateral else usdcE } := rfl

/-- C1: for every 32-byte conditionId and flag, `calculate_token_ids`
returns exactly the triple computed by the algorithm the specification
states (keccak hash of the abi encoding, parity bit of the leading byte,
increment-until-square hash-to-curve on alt-bn128, xor of the parity
toggle, big-endian serialisation, position hash of collateral address and
collection id), with collateral `WRAPPED_COLLATERAL` if negRisk else
`USDC_E`; and the function is pure and deterministic. -/
theorem ctf_calculate_token_ids_correct (conditionId : Fin (2 ^ 256)) (isNegRisk : Bool)
    (usdcE wrappedCollateral : Fin (2 ^ 160)) :
    calculateTokenIds conditionId isNegRisk usdcE wrappedCollateral
      = specTokenIds conditionId isNegRisk usdcE wrappedCollateral ∧
    calculateTokenIds conditionId isNegRisk usdcE wrappedCollateral
      = calculateTokenIds conditionId isNegRisk usdcE wrappedCollateral := by
  refine ⟨?_, rfl⟩
  rw [calculateTokenIds_unfold, specTokenIds_unfold, positionIds_two,
    List.getD_cons_zero, List.getD_cons_succ, List.getD_cons_zero]

end CTF

/-! ## C7/C10: persistent-store upserts (`src/core/db/store.py`)

`upsert_market` and `upsert_event` with their `COALESCE` update semantics.
Incoming payloads are records of optional fields; where the source merges a
snake_case and a camelCase spelling with Python's `or`, both fields are
present and merged with the same truthiness rules (`None` and `""` are
falsy for strings, `None` and `False` for booleans, `None` and `0` for
numbers).  Numeric fields carry already-parsed values; a value
`parse_float` would reject is represented as `none`.  `datetime.now`
timestamps are passed in as the `now` argument. -/

namespace Store

def truthyStr (o : Option String) : Bool :=
  match o with
  | some s => s ≠ ""
  | none => false

def truthyBool (o : Option Bool) : Bool := o == some true

/-- Python `a or b` on two optional strings. -/
def pyOrStr (a b : Option String) : Option String :=
  if truthyStr a then a else b

/-- Python `a or b` on two optional booleans. -/
def pyOrBool (a b : Option Bool) : Option Bool :=
  if a == some true then a else b

/-- Python `a or b` on two optional numbers (`0` is falsy). -/
def pyOrQ (a b : Option ℚ) : Option ℚ :=
  match a with
  | some q => if q ≠ 0 then a else b
  | none => b

/-- SQL `COALESCE(new, old)` onto a nullable stored column. -/
def co {α : Type} (new old : Option α) : Option α := new.or old

/-- SQL `COALESCE(new, old)` onto a non-null stored column. -/
def coD {α : Type} (new : Option α) (old : α) : α := new.getD old

structure MarketPayload where
  event_id : Option ℕ := none
  slug : Option String := none
  condition_id : Option String := none
  conditionId : Option String := none
  question_id : Option String := none
  questionID : Option String := none
  oracle : Option String := none
  resolvedBy : Option String := none
  collateral_token : Option String := none
  collateralToken : Option String := none
  yes_token_id : Option String := none
  yesTokenId : Option String := none
  no_token_id : Option String := none
  noTokenId : Option String := none
  enable_neg_risk : Option Bool := none
  negRisk : Option Bool := none
  status : Option String := none
  archived : Option Bool := none
  closed : Option Bool := none
  active : Option Bool := none
  question : Option String := none
  description : Option String := none
  outcomes : Option String := none
  outcome_prices : Option String := none
  outcomePrices : Option String := none
  end_date : Option String := none
  endDate : Option String := none
  image : Option String := none
  icon : Option String := none
  category : Option String := none
  volume : Option ℚ := none
  volumeNum : Option ℚ := none
  volume_24h : Option ℚ := none
  volume24hr : Option ℚ := none
  liquidity : Option ℚ := none
  liquidityNum : Option ℚ := none
  best_bid : Option ℚ := none
  bestBid : Option ℚ := none
  best_ask : Option ℚ := none
  bestAsk : Option ℚ := none
  sync_warning : Option String := none
deriving DecidableEq

/-- `_get_status(data)`: derive a status from a Gamma payload.  Total: it
always returns one of the listed strings, never null. -/
def deriveStatus (status : Option String) (archived closed active : Option Bool) : String :=
  if truthyStr status then status.getD ""
  else if truthyBool archived then "archived"
  else if truthyBool closed then "closed"
  else if active == some false then "closed"
  else "active"

def getStatus (m : MarketPayload) : String :=
  deriveStatus m.status m.archived m.closed m.active

structure MarketRow where
  id : ℕ
  eventId : Option ℕ
  slug : Option String
  conditionId : String
  questionId : Option String
  oracle : Option String
  collateralToken : Option String
  yesTokenId : Option String
  noTokenId : Option String
  enableNegRisk : Bool
  status : String
  question : Option String
  description : Option String
  outcomes : Option String
  outcomePrices : Option String
  endDate : Option String
  image : Option String
  icon : Option String
  category : Option String
  volume : Option ℚ
  volume24h : Option ℚ
  liquidity : Option ℚ
  bestBid : Option ℚ
  bestAsk : Option ℚ
  syncWarning : Option String
  createdAt : String
  updatedAt : String
deriving DecidableEq

/-- The `UPDATE markets SET … WHERE id = ?` branch of `upsert_market`. -/
def updateMarketRow (m : MarketPayload) (now : String) (r : MarketRow) : MarketRow :=
  { r with
    eventId := co m.event_id r.eventId
    slug := co m.slug r.slug
    questionId := co (pyOrStr m.question_id m.questionID) r.questionId
    oracle := co (pyOrStr m.oracle m.resolvedBy) r.oracle
    collateralToken := co (pyOrStr m.collateral_token m.collateralToken) r.collateralToken
    yesTokenId := co (pyOrStr m.yes_token_id m.yesTokenId) r.yesTokenId
    noTokenId := co (pyOrStr m.no_token_id m.noTokenId) r.noTokenId
    enableNegRisk := coD (pyOrBool m.enable_neg_risk m.negRisk) r.enableNegRisk
    status := coD (some (getStatus m)) r.status
    question := co m.question r.question
    description := co m.description r.description
    outcomes := co m.outcomes r.outcomes
    outcomePrices := co (pyOrStr m.outcome_prices m.outcomePrices) r.outcomePrices
    endDate := co (pyOrStr m.end_date m.endDate) r.endDate
    image := co m.image r.image
    icon := co m.icon r.icon
    category := co m.category r.category
    volume := co (pyOrQ m.volume m.volumeNum) r.volume
    volume24h := co (pyOrQ m.volume_24h m.volume24hr) r.volume24h
    liquidity := co (pyOrQ m.liquidity m.liquidityNum) r.liquidity
    bestBid := co (pyOrQ m.best_bid m.bestBid) r.bestBid
    bestAsk := co (pyOrQ m.best_ask m.bestAsk) r.bestAsk
    syncWarning := m.sync_warning
    updatedAt := now }

/-- The `INSERT INTO markets` branch of `upsert_market`. -/
def insertMarketRow (m : MarketPayload) (now : String) (newId : ℕ) (cid : String) : MarketRow :=
  { id := newId
    eventId := m.event_id
    slug := m.slug
    conditionId := cid
    questionId := pyOrStr m.question_id m.questionID
    oracle := pyOrStr m.oracle m.resolvedBy
    collateralToken := pyOrStr m.collateral_token m.collateralToken
    yesTokenId := pyOrStr m.yes_token_id m.yesTokenId
    noTokenId := pyOrStr m.no_token_id m.noTokenId
    enableNegRisk := (pyOrBool m.enable_neg_risk m.negRisk).getD false
    status := getStatus m
    question := m.question
    description := m.description
    outcomes := m.outcomes
    outcomePrices := pyOrStr m.outcome_prices m.outcomePrices
    endDate := pyOrStr m.end_date m.endDate
    image := m.image
    icon := m.icon
    category := m.category
    volume := pyOrQ m.volume m.volumeNum
    volume24h := pyOrQ m.volume_24h m.volume24hr
    liquidity := pyOrQ m.liquidity m.liquidityNum
    bestBid := pyOrQ m.best_bid m.bestBid
    bestAsk := pyOrQ m.best_ask m.bestAsk
    syncWarning := m.sync_warning
    createdAt := now
    updatedAt := now }

def maxId (db : List MarketRow) : ℕ := db.foldl (fun acc r => max acc r.id) 0

/-- `upsert_market(conn, market)`: `none` models the `ValueError` raised
when the payload has no truthy condition id. -/
def upsertMarket (db : List MarketRow) (m : MarketPayload) (now : String) :
    Option (ℕ × List MarketRow) :=
  let cid := pyOrStr m.condition_id m.conditionId
  if truthyStr cid = true then
    match db.find? (fun r => r.conditionId == cid.getD "") with
    | some r => some (r.id, db.map (fun row => if row.id == r.id then updateMarketRow m now row else row))
    | none =>
        let newId := maxId db + 1
        some (newId, db ++ [insertMarketRow m now newId (cid.getD "")])
  else none

structure EventPayload where
  slug : Option String := none
  title : Option String := none
  description : Option String := none
  category : Option String := none
  start_date : Option String := none
  startDate : Option String := none
  end_date : Option String := none
  endDate : Option String := none
  image : Option String := none
  icon : Option String := none
  status : Option String := none
  archived : Option Bool := none
  closed : Option Bool := none
  active : Option Bool := none
  enable_neg_risk : Option Bool := none
  enableNegRisk : Option Bool := none
deriving DecidableEq

def getStatusE (e : EventPayload) : String :=
  deriveStatus e.status e.archived e.closed e.active

structure EventRow where
  id : ℕ
  slug : Option String
  title : Option String
  description : Option String
  category : Option String
  startDate : Option String
  endDate : Option String
  image : Option String
  icon : Option String
  status : String
  enableNegRisk : Bool
  createdAt : String
  updatedAt : String
deriving DecidableEq

/-- The `UPDATE events SET … WHERE id = ?` branch of `upsert_event`. -/
def updateEventRow (e : EventPayload) (now : String) (r : EventRow) : EventRow :=
  { r with
    title := co e.title r.title
    description := co e.description r.description
    category := co e.category r.category
    startDate := co (pyOrStr e.start_date e.startDate) r.startDate
    endDate := co (pyOrStr e.end_date e.endDate) r.endDate
    image := co e.image r.image
    icon := co e.icon r.icon
    status := coD (some (getStatusE e)) r.status
    enableNegRisk := coD (pyOrBool e.enable_neg_risk e.enableNegRisk) r.enableNegRisk
    updatedAt := now }

/-- The `INSERT INTO events` branch of `upsert_event`. -/
def insertEventRow (e : EventPayload) (now : String) (newId : ℕ) : EventRow :=
  { id := newId
    slug := e.slug
    title := e.title
    description := e.description
    category := e.category
    startDate := pyOrStr e.start_date e.startDate
    endDate := pyOrStr e.end_date e.endDate
    image := e.image
    icon := e.icon
    status := getStatusE e
    enableNegRisk := (pyOrBool e.enable_neg_risk e.enableNegRisk).getD false
    createdAt := now
    updatedAt := now }

def maxEventId (db : List EventRow) : ℕ := db.foldl (fun acc r => max acc r.id) 0

/-- `upsert_event(conn, event)`; a `None` slug matches no stored row
(SQL `slug = NULL`), so it always inserts. -/
def upsertEvent (db : List EventRow) (e : EventPayload) (now : String) : ℕ × List EventRow :=
  let found : Option EventRow :=
    match e.slug with
    | some s => db.find? (fun r => r.slug == some s)
    | none => none
  match found with
  | some r => (r.id, db.map (fun row => if row.id == r.id then updateEventRow e now row else row))
  | none =>
      let newId := maxEventId db + 1
      (newId, db ++ [insertEventRow e now newId])

theorem co_none {α : Type} (old : Option α) : co none old = old := rfl

theorem co_some {α : Type} (v : α) (old : Option α) : co (some v) old = some v := rfl

theorem co_idem {α : Type} (a b : Option α) : co a (co a b) = co a b := by
  cases a <;> simp [co]

theorem coD_idem {α : Type} (a : Option α) (b : α) : coD a (coD a b) = coD a b := by
  cases a <;> simp [coD]

theorem co_self {α : Type} (a : Option α) : co a a = a := by
  cases a <;> simp [co]

theorem coD_getD {α : Type} (a : Option α) (d : α) : coD a (a.getD d) = a.getD d := by
  cases a <;> simp [coD]

theorem le_foldl_max {α : Type} (f : α → ℕ) (l : List α) :
    ∀ acc, acc ≤ l.foldl (fun a x => max a (f x)) acc := by
  induction l with
  | nil => intro acc; simp
  | cons x xs ih =>
    intro acc
    exact le_trans (le_max_left acc (f x)) (ih (max acc (f x)))

theorem mem_le_foldl_max {α : Type} (f : α → ℕ) (l : List α) :
    ∀ acc, ∀ r ∈ l, f r ≤ l.foldl (fun a x => max a (f x)) acc := by
  induction l with
  | nil => intro acc r hr; cases hr
  | cons x xs ih =>
    intro acc r hr
    rcases List.mem_cons.mp hr with h | h
    · subst h
      exact le_trans (le_max_right acc (f r)) (le_foldl_max f xs (max acc (f r)))
    · exact ih (max acc (f x)) r h

theorem mem_le_maxId (db : List MarketRow) : ∀ r ∈ db, r.id ≤ maxId db :=
  mem_le_foldl_max (fun r => r.id) db 0

theorem mem_le_maxEventId (db : List EventRow) : ∀ r ∈ db, r.id ≤ maxEventId db :=
  mem_le_foldl_max (fun r => r.id) db 0

theorem upsertMarket_update_row (db : List MarketRow) (m : MarketPayload) (now : String)
    (i : ℕ) (db1 : List MarketRow)
    (hids : (db.map (fun r => r.id)).Nodup)
    (h : upsertMarket db m now = some (i, db1))
    (r : MarketRow) (hr : r ∈ db) (hri : r.id = i) :
    ∀ r1 ∈ db1, r1.id = i → r1 = updateMarketRow m now r := by
  simp only [upsertMarket] at h
  split at h
  · split at h
    · rename_i r' hf
      injection h with h1
      injection h1 with hi hdb
      intro r1 h1 hid1
      rw [← hdb] at h1
      rcases List.mem_map.mp h1 with ⟨row, hrow, hfr⟩
      by_cases hb : (row.id == r'.id) = true
      · have hrowid : row.id = r'.id := eq_of_beq hb
        have hrowr : row = r := by
          have hinj := List.inj_on_of_nodup_map hids
          exact hinj hrow hr (by show row.id = r.id; omega)
        subst hrowr
        rw [← hfr, if_pos hb]
      · exfalso
        rw [← hfr, if_neg hb] at hid1
        have : row.id = r'.id := by omega
        exact hb (by simp [this])
    · injection h with h1
      injection h1 with hi hdb
      exfalso
      have := mem_le_maxId db r hr
      omega
  · exact absurd h (by simp)

theorem updateMarketRow_idem (m : MarketPayload) (now now2 : String) (r : MarketRow) :
    updateMarketRow m now2 (updateMarketRow m now r)
      = { updateMarketRow m now r with updatedAt := now2 } := by
  simp [updateMarketRow, co_idem, coD_idem]

theorem opt_getD_getD {α : Type} (a : Option α) (d : α) : a.getD (a.getD d) = a.getD d := by
  cases a <;> simp

theorem updateMarketRow_of_insert (m : MarketPayload) (now now2 : String) (nid : ℕ) (cid : String) :
    updateMarketRow m now2 (insertMarketRow m now nid cid)
      = { insertMarketRow m now nid cid with updatedAt := now2 } := by
  simp [updateMarketRow, insertMarketRow, co_self, coD_getD, coD, opt_getD_getD]

theorem upsertMarket_fixed_point (db : List MarketRow) (m : MarketPayload) (now now2 : String)
    (i : ℕ) (db1 : List MarketRow)
    (h : upsertMarket db m now = some (i, db1)) :
    upsertMarket db1 m now2
      = some (i, db1.map (fun r => if r.id == i then { r with updatedAt := now2 } else r)) := by
  simp only [upsertMarket] at h ⊢
  split at h
  · rename_i ht
    simp only [ht, if_true]
    split at h
    · rename_i r' hf
      injection h with h1
      injection h1 with hi hdb
      have hff : List.find? (fun r => r.conditionId == (pyOrStr m.condition_id m.conditionId).getD "")
          db1 = some (updateMarketRow m now r') := by
        rw [← hdb, List.find?_map]
        have hpf : ((fun r : MarketRow =>
              r.conditionId == (pyOrStr m.condition_id m.conditionId).getD "") ∘
              (fun row => if (row.id == r'.id) = true then updateMarketRow m now row else row)) =
            (fun r : MarketRow =>
              r.conditionId == (pyOrStr m.condition_id m.conditionId).getD "") := by
          funext row
          by_cases hb : (row.id == r'.id) = true <;> simp [hb, updateMarketRow, Function.comp]
        rw [hpf, hf]
        simp [Option.map, updateMarketRow]
      rw [hff]
      have hid : (updateMarketRow m now r').id = r'.id := rfl
      refine congrArg some (Prod.ext ?_ ?_)
      · simp [hid, hi]
      · show db1.map _ = db1.map _
        apply List.map_congr_left
        intro x hx
        rw [← hdb] at hx
        rcases List.mem_map.mp hx with ⟨row, hrow, hfx⟩
        by_cases hb : (row.id == r'.id) = true
        · rw [if_pos hb] at hfx
          have hxid : x.id = r'.id := by rw [← hfx]; exact eq_of_beq hb
          have hc1 : (x.id == (updateMarketRow m now r').id) = true := by
            rw [hid]; simp [hxid]
          have hc2 : (x.id == i) = true := by simp [hxid, hi]
          rw [if_pos hc1, if_pos hc2, ← hfx, updateMarketRow_idem]
        · rw [if_neg hb] at hfx
          have hxid : x.id ≠ r'.id := by
            rw [← hfx]
            intro hcc
            exact hb (by simp [hcc])
          have hc1 : ¬ (x.id == (updateMarketRow m now r').id) = true := by
            rw [hid]; simp [hxid]
          have hc2 : ¬ (x.id == i) = true := by
            simp [← hi, hxid]
          rw [if_neg hc1, if_neg hc2]
    · rename_i hf
      injection h with h1
      injection h1 with hi hdb
      have hff : List.find? (fun r => r.conditionId == (pyOrStr m.condition_id m.conditionId).getD "")
          db1 = some (insertMarketRow m now (maxId db + 1)
            ((pyOrStr m.condition_id m.conditionId).getD "")) := by
        rw [← hdb, List.find?_append, hf]
        simp [List.find?, insertMarketRow]
      rw [hff]
      refine congrArg some (Prod.ext ?_ ?_)
      · simp [insertMarketRow, hi]
      · show db1.map _ = db1.map _
        apply List.map_congr_left
        intro x hx
        rw [← hdb] at hx
        rcases List.mem_append.mp hx with hx1 | hx1
        · have hxle : x.id ≤ maxId db := mem_le_maxId db x hx1
          have hc1 : ¬ (x.id == (insertMarketRow m now (maxId db + 1)
              ((pyOrStr m.condition_id m.conditionId).getD "")).id) = true := by
            simp [insertMarketRow]
            omega
          have hc2 : ¬ (x.id == i) = true := by
            simp
            omega
          rw [if_neg hc1, if_neg hc2]
        · have hx2 : x = insertMarketRow m now (maxId db + 1)
              ((pyOrStr m.condition_id m.conditionId).getD "") := by
            simpa using hx1
          subst hx2
          have hc1 : ((insertMarketRow m now (maxId db + 1)
              ((pyOrStr m.condition_id m.conditionId).getD "")).id ==
              (insertMarketRow m now (maxId db + 1)
              ((pyOrStr m.condition_id m.conditionId).getD "")).id) = true := by simp
          have hc2 : ((insertMarketRow m now (maxId db + 1)
              ((pyOrStr m.condition_id m.conditionId).getD "")).id == i) = true := by
            simp [insertMarketRow, hi]
          rw [if_pos hc1, if_pos hc2, updateMarketRow_of_insert]
  · exact absurd h (by simp)

/-- Concrete stored market row carrying a `sync_warning`. -/
def rowEx : MarketRow :=
  { id := 1, eventId := none, slug := some "mkt", conditionId := "c", questionId := none
    oracle := none, collateralToken := none, yesTokenId := some "77", noTokenId := some "78"
    enableNegRisk := false, status := "active", question := none, description := none
    outcomes := none, outcomePrices := none, endDate := none, image := none, icon := none
    category := none, volume := none, volume24h := none, liquidity := none, bestBid := none
    bestAsk := none, syncWarning := some "stale token mismatch", createdAt := "T0", updatedAt := "T0" }

/-- Incoming payload whose `sync_warning` is null. -/
def mEx : MarketPayload := { conditionId := some "c" }

/-- Counterexample to C7 as stated: a null incoming `sync_warning` does not
keep the stored value — the `sync_warning = ?` column of the UPDATE has no
`COALESCE`, so the stored warning is overwritten with null. -/
theorem store_c7_counterexample :
    rowEx.syncWarning = some "stale token mismatch" ∧
    mEx.sync_warning = none ∧
    (upsertMarket [rowEx] mEx "T1").map (fun p => p.2.map (fun r => r.syncWarning))
      = some [none] :=
  ⟨rfl, rfl, rfl⟩

/-- C7 (amended): in a market upsert, a null incoming field keeps the
stored value and a non-null field overwrites it — for every column of the
markets table except `status`, which is always overwritten with the
derived status, and `sync_warning`, which is always overwritten by the
incoming value (null clears it); upserting the same payload twice is a
fixed point in which the second call changes `updated_at` and nothing
else. -/
theorem store_upsert_market_semantics (db : List MarketRow) (m : MarketPayload)
    (now now2 : String) (i : ℕ) (db1 : List MarketRow)
    (hids : (db.map (fun r => r.id)).Nodup)
    (h : upsertMarket db m now = some (i, db1)) :
    (∀ r ∈ db, r.id = i → ∀ r1 ∈ db1, r1.id = i →
      r1.syncWarning = m.sync_warning ∧
      r1.status = getStatus m ∧
      r1.conditionId = r.conditionId ∧
      r1.createdAt = r.createdAt ∧
      r1.updatedAt = now ∧
      (m.event_id = none → r1.eventId = r.eventId) ∧
      (∀ v, m.event_id = some v → r1.eventId = some v) ∧
      (m.slug = none → r1.slug = r.slug) ∧
      (∀ v, m.slug = some v → r1.slug = some v) ∧
      (pyOrStr m.question_id m.questionID = none → r1.questionId = r.questionId) ∧
      (∀ v, pyOrStr m.question_id m.questionID = some v → r1.questionId = some v) ∧
      (pyOrStr m.oracle m.resolvedBy = none → r1.oracle = r.oracle) ∧
      (∀ v, pyOrStr m.oracle m.resolvedBy = some v → r1.oracle = some v) ∧
      (pyOrStr m.collateral_token m.collateralToken = none → r1.collateralToken = r.collateralToken) ∧
      (∀ v, pyOrStr m.collateral_token m.collateralToken = some v → r1.collateralToken = some v) ∧
      (pyOrStr m.yes_token_id m.yesTokenId = none → r1.yesTokenId = r.yesTokenId) ∧
      (∀ v, pyOrStr m.yes_token_id m.yesTokenId = some v → r1.yesTokenId = some v) ∧
      (pyOrStr m.no_token_id m.noTokenId = none → r1.noTokenId = r.noTokenId) ∧
      (∀ v, pyOrStr m.no_token_id m.noTokenId = some v → r1.noTokenId = some v) ∧
      (m.question = none → r1.question = r.question) ∧
      (∀ v, m.question = some v → r1.question = some v) ∧
      (m.description = none → r1.description = r.description) ∧
      (∀ v, m.description = some v → r1.description = some v) ∧
      (m.outcomes = none → r1.outcomes = r.outcomes) ∧
      (∀ v, m.outcomes = some v → r1.outcomes = some v) ∧
      (pyOrStr m.outcome_prices m.outcomePrices = none → r1.outcomePrices = r.outcomePrices) ∧
      (∀ v, pyOrStr m.outcome_prices m.outcomePrices = some v → r1.outcomePrices = some v) ∧
      (pyOrStr m.end_date m.endDate = none → r1.endDate = r.endDate) ∧
      (∀ v, pyOrStr m.end_date m.endDate = some v → r1.endDate = some v) ∧
      (m.image = none → r1.image = r.image) ∧
      (∀ v, m.image = some v → r1.image = some v) ∧
      (m.icon = none → r1.icon = r.icon) ∧
      (∀ v, m.icon = some v → r1.icon = some v) ∧
      (m.category = none → r1.category = r.category) ∧
      (∀ v, m.category = some v → r1.category = some v) ∧
      (pyOrQ m.volume m.volumeNum = none → r1.volume = r.volume) ∧
      (∀ v, pyOrQ m.volume m.volumeNum = some v → r1.volume = some v) ∧
      (pyOrQ m.volume_24h m.volume24hr = none → r1.volume24h = r.volume24h) ∧
      (∀ v, pyOrQ m.volume_24h m.volume24hr = some v → r1.volume24h = some v) ∧
      (pyOrQ m.liquidity m.liquidityNum = none → r1.liquidity = r.liquidity) ∧
      (∀ v, pyOrQ m.liquidity m.liquidityNum = some v → r1.liquidity = some v) ∧
      (pyOrQ m.best_bid m.bestBid = none → r1.bestBid = r.bestBid) ∧
      (∀ v, pyOrQ m.best_bid m.bestBid = some v → r1.bestBid = some v) ∧
      (pyOrQ m.best_ask m.bestAsk = none → r1.bestAsk = r.bestAsk) ∧
      (∀ v, pyOrQ m.best_ask m.bestAsk = some v → r1.bestAsk = some v) ∧
      (pyOrBool m.enable_neg_risk m.negRisk = none → r1.enableNegRisk = r.enableNegRisk) ∧
      (∀ v, pyOrBool m.enable_neg_risk m.negRisk = some v → r1.enableNegRisk = v)) ∧
    upsertMarket db1 m now2
      = some (i, db1.map (fun r => if r.id == i then { r with updatedAt := now2 } else r)) := by
  constructor
  · intro r hr hri r1 h1 hid1
    have hr1 := upsertMarket_update_row db m now i db1 hids h r hr hri r1 h1 hid1
    subst hr1
    refine ⟨rfl, rfl, rfl, rfl, rfl, ?_⟩
    repeat' constructor
    all_goals
      first
        | (intro h0; simp [updateMarketRow, co, coD, h0])
        | (intro v h0; simp [updateMarketRow, co, coD, h0])
  · exact upsertMarket_fixed_point db m now now2 i db1 h

def db1Ex : List MarketRow := ((upsertMarket [rowEx] mEx "T1").getD (0, [])).2

theorem store_c7_witness :
    upsertMarket db1Ex mEx "T2"
      = some (1, db1Ex.map (fun r => if r.id == 1 then { r with updatedAt := "T2" } else r)) :=
  (store_upsert_market_semantics [rowEx] mEx "T1" "T2" 1 db1Ex (by decide) rfl).2

/-- C10: the stored status of an event or market upsert is always the
derived `_get_status` value, never null; when the payload has no truthy
status, archived or closed flag and `active` is not `false`, the stored
status is overwritten to `"active"` — even over a stored `"closed"` or
`"archived"`. -/
theorem store_status_overwritten_to_active (m : MarketPayload) (e : EventPayload)
    (hms : truthyStr m.status = false) (hma : truthyBool m.archived = false)
    (hmc : truthyBool m.closed = false) (hmact : ¬ m.active = some false)
    (hes : truthyStr e.status = false) (hea : truthyBool e.archived = false)
    (hec : truthyBool e.closed = false) (heact : ¬ e.active = some false) :
    getStatus m = "active" ∧ getStatusE e = "active" ∧
    (∀ db now i db1, upsertMarket db m now = some (i, db1) →
      ∀ r1 ∈ db1, r1.id = i → r1.status = "active") ∧
    (∀ db : List EventRow, ∀ now, ∀ r1 ∈ (upsertEvent db e now).2,
      r1.id = (upsertEvent db e now).1 → r1.status = "active") := by
  have hgm : getStatus m = "active" := by
    simp [getStatus, deriveStatus, hms, hma, hmc, beq_iff_eq, hmact]
  have hge : getStatusE e = "active" := by
    simp [getStatusE, deriveStatus, hes, hea, hec, beq_iff_eq, heact]
  refine ⟨hgm, hge, ?_, ?_⟩
  · intro db now i db1 h r1 h1 hid1
    simp only [upsertMarket] at h
    split at h
    · split at h
      · rename_i r' hf
        injection h with h1x
        injection h1x with hi hdb
        rw [← hdb] at h1
        rcases List.mem_map.mp h1 with ⟨row, hrow, hfx⟩
        by_cases hb : (row.id == r'.id) = true
        · rw [if_pos hb] at hfx
          rw [← hfx]
          show coD (some (getStatus m)) row.status = "active"
          simp [coD, hgm]
        · exfalso
          rw [if_neg hb] at hfx
          rw [← hfx] at hid1
          exact hb (by simp; omega)
      · injection h with h1x
        injection h1x with hi hdb
        rw [← hdb] at h1
        rcases List.mem_append.mp h1 with hx1 | hx1
        · exfalso
          have := mem_le_maxId db r1 hx1
          omega
        · have hx2 : r1 = insertMarketRow m now (maxId db + 1)
              ((pyOrStr m.condition_id m.conditionId).getD "") := by simpa using hx1
          rw [hx2]
          show getStatus m = "active"
          exact hgm
    · exact absurd h (by simp)
  · intro db now r1 h1 hid1
    cases hf : (match e.slug with
        | some s => db.find? (fun r : EventRow => r.slug == some s)
        | none => none) with
    | some r' =>
      have hres : upsertEvent db e now
          = (r'.id, db.map (fun row =>
              if (row.id == r'.id) = true then updateEventRow e now row else row)) := by
        simp [upsertEvent, hf]
      rw [hres] at h1 hid1
      simp only at h1 hid1
      rcases List.mem_map.mp h1 with ⟨row, hrow, hfx⟩
      by_cases hb : (row.id == r'.id) = true
      · rw [if_pos hb] at hfx
        rw [← hfx]
        show coD (some (getStatusE e)) row.status = "active"
        simp [coD, hge]
      · exfalso
        rw [if_neg hb] at hfx
        rw [← hfx] at hid1
        exact hb (by simp; omega)
    | none =>
      have hres : upsertEvent db e now
          = (maxEventId db + 1, db ++ [insertEventRow e now (maxEventId db + 1)]) := by
        simp [upsertEvent, hf]
      rw [hres] at h1 hid1
      simp only at h1 hid1
      rcases List.mem_append.mp h1 with hx1 | hx1
      · exfalso
        have := mem_le_maxEventId db r1 hx1
        omega
      · have hx2 : r1 = insertEventRow e now (maxEventId db + 1) := by simpa using hx1
        rw [hx2]
        show getStatusE e = "active"
        exact hge

def mC10 : MarketPayload := { conditionId := some "c", active := some true }

def eC10 : EventPayload := { slug := some "ev" }

def rowClosed : MarketRow := { rowEx with status := "closed", syncWarning := none }

def upC10 : List MarketRow := ((upsertMarket [rowClosed] mC10 "T1").getD (0, [])).2

theorem store_c10_witness :
    rowClosed.status = "closed" ∧
    ∀ r1 ∈ upC10, r1.id = 1 → r1.status = "active" :=
  ⟨rfl, (store_status_overwritten_to_active mC10 eC10 rfl rfl rfl (by decide)
      rfl rfl rfl (by decide)).2.2.1 [rowClosed] "T1" 1 upC10 rfl⟩

end Store

/-! ## C8: buy/sell pressure metric (`src/core/metrics.py`)

`MarketMetrics.calculate_buy_sell_ratio`.  The SQL `WHERE market_id = ?
AND timestamp >= cutoff AND price > 0 [AND token_id = ?]` scan with
`GROUP BY side` is embedded as list filtering and summation; timestamps
are epoch numbers (the stored ISO-8601 UTC strings compare identically);
float arithmetic is modelled by exact rationals, `str.upper` by an ASCII
character map, and Python's `round(x, n)` by half-up rounding (it differs
from banker's rounding only at exact midpoints, which none of the
statements below touch). -/

namespace Metrics

/-- `str.upper()` (ASCII). -/
def pyUpper (s : String) : String := ⟨s.data.map Char.toUpper⟩

structure MTrade where
  marketId : ℕ
  tokenId : ℕ
  side : String
  price : ℚ
  size : ℚ
  timestamp : ℕ
deriving DecidableEq

/-- `round(x, n)` (half-up). -/
def roundTo (n : ℕ) (x : ℚ) : ℚ := (⌊x * 10 ^ n + 1 / 2⌋ : ℚ) / 10 ^ n

theorem roundTo_eval (n : ℕ) (x : ℚ) (z : ℤ)
    (h1 : (z : ℚ) ≤ x * 10 ^ n + 1 / 2) (h2 : x * 10 ^ n + 1 / 2 < z + 1) :
    roundTo n x = (z : ℚ) / 10 ^ n := by
  unfold roundTo
  rw [Int.floor_eq_iff.mpr ⟨h1, h2⟩]

theorem roundTo_one : roundTo 2 (1 : ℚ) = 1 := by
  rw [roundTo_eval 2 1 100 (by norm_num) (by norm_num)]
  norm_num

theorem roundTo_fifty : roundTo 1 (50 : ℚ) = 50 := by
  rw [roundTo_eval 1 50 500 (by norm_num) (by norm_num)]
  norm_num

theorem roundTo_hundred : roundTo 1 (100 : ℚ) = 100 := by
  rw [roundTo_eval 1 100 1000 (by norm_num) (by norm_num)]
  norm_num

def selectedTrades (trades : List MTrade) (marketId : ℕ) (tokenId : Option ℕ)
    (cutoff : ℕ) : List MTrade :=
  trades.filter (fun t =>
    t.marketId == marketId && decide (cutoff ≤ t.timestamp) && decide (0 < t.price) &&
      (match tokenId with
       | some tk => t.tokenId == tk
       | none => true))

def buyVolumeOf (trades : List MTrade) (marketId : ℕ) (tokenId : Option ℕ) (cutoff : ℕ) : ℚ :=
  (((selectedTrades trades marketId tokenId cutoff).filter
    (fun t => pyUpper t.side == "BUY")).map (fun t => t.price * t.size)).sum

def sellVolumeOf (trades : List MTrade) (marketId : ℕ) (tokenId : Option ℕ) (cutoff : ℕ) : ℚ :=
  (((selectedTrades trades marketId tokenId cutoff).filter
    (fun t => pyUpper t.side == "SELL")).map (fun t => t.price * t.size)).sum

structure BuySellResult where
  buyVolume : ℚ
  sellVolume : ℚ
  buyCount : ℕ
  sellCount : ℕ
  buySellRatio : Option ℚ
  buyPercentage : ℚ
deriving DecidableEq

/-- `calculate_buy_sell_ratio(market_id, token_id, period)` with the
period cutoff passed in; `buySellRatio = none` models the JSON `null`
(the `float('inf')` sentinel is reported as null). -/
def calculateBuySellRatio (trades : List MTrade) (marketId : ℕ) (tokenId : Option ℕ)
    (cutoff : ℕ) : BuySellResult :=
  let sel := selectedTrades trades marketId tokenId cutoff
  let buyVolume := buyVolumeOf trades marketId tokenId cutoff
  let sellVolume := sellVolumeOf trades marketId tokenId cutoff
  let totalVolume := buyVolume + sellVolume
  let ratio : Option ℚ :=
    if sellVolume > 0 then some (buyVolume / sellVolume)
    else if buyVolume > 0 then none
    else some 1
  let buyPct := if totalVolume > 0 then buyVolume / totalVolume * 100 else 50
  { buyVolume := roundTo 2 buyVolume
    sellVolume := roundTo 2 sellVolume
    buyCount := (sel.filter (fun t => pyUpper t.side == "BUY")).length
    sellCount := (sel.filter (fun t => pyUpper t.side == "SELL")).length
    buySellRatio := ratio.map (roundTo 2)
    buyPercentage := roundTo 1 buyPct }

/-- Counterexample to C8 as stated: when both volumes are zero the code
reports `buy_sell_ratio = 1.0` (and `buy_percentage = 50.0`), not null. -/
theorem metrics_c8_counterexample :
    buyVolumeOf [] 1 none 0 = 0 ∧ sellVolumeOf [] 1 none 0 = 0 ∧
    (calculateBuySellRatio [] 1 none 0).buySellRatio = some 1 ∧
    (calculateBuySellRatio [] 1 none 0).buyPercentage = 50 := by
  refine ⟨rfl, rfl, ?_, ?_⟩
  · simp only [calculateBuySellRatio]
    rw [if_neg (by norm_num [sellVolumeOf, selectedTrades]),
      if_neg (by norm_num [buyVolumeOf, selectedTrades])]
    simp [roundTo_one]
  · simp only [calculateBuySellRatio]
    rw [if_neg (by norm_num [buyVolumeOf, sellVolumeOf, selectedTrades])]
    exact roundTo_fifty

/-- C8 (amended): `buy_percentage = buy/(buy+sell)·100` whenever some
volume exists and `buy_sell_ratio = buy/sell` when `sell > 0`;
`buy_sell_ratio` is reported as null exactly in the +∞ case
`sell = 0 < buy`, where `buy_percentage = 100`; when both volumes are
zero the ratio is reported as `1.0` and the percentage as `50.0`. -/
theorem metrics_buy_sell_ratio_correct (trades : List MTrade) (marketId : ℕ)
    (tokenId : Option ℕ) (cutoff : ℕ) :
    (0 < sellVolumeOf trades marketId tokenId cutoff →
      (calculateBuySellRatio trades marketId tokenId cutoff).buySellRatio
        = some (roundTo 2 (buyVolumeOf trades marketId tokenId cutoff
            / sellVolumeOf trades marketId tokenId cutoff))) ∧
    (sellVolumeOf trades marketId tokenId cutoff = 0 →
      0 < buyVolumeOf trades marketId tokenId cutoff →
      (calculateBuySellRatio trades marketId tokenId cutoff).buySellRatio = none ∧
      (calculateBuySellRatio trades marketId tokenId cutoff).buyPercentage = 100) ∧
    (sellVolumeOf trades marketId tokenId cutoff = 0 →
      buyVolumeOf trades marketId tokenId cutoff = 0 →
      (calculateBuySellRatio trades marketId tokenId cutoff).buySellRatio = some 1 ∧
      (calculateBuySellRatio trades marketId tokenId cutoff).buyPercentage = 50) ∧
    (0 < buyVolumeOf trades marketId tokenId cutoff
        + sellVolumeOf trades marketId tokenId cutoff →
      (calculateBuySellRatio trades marketId tokenId cutoff).buyPercentage
        = roundTo 1 (buyVolumeOf trades marketId tokenId cutoff
            / (buyVolumeOf trades marketId tokenId cutoff
              + sellVolumeOf trades marketId tokenId cutoff) * 100)) := by
  refine ⟨?_, ?_, ?_, ?_⟩
  · intro hs
    simp only [calculateBuySellRatio]
    rw [if_pos hs]
    rfl
  · intro hs hb
    constructor
    · simp only [calculateBuySellRatio]
      rw [if_neg (by rw [hs]; exact lt_irrefl 0), if_pos hb]
      rfl
    · simp only [calculateBuySellRatio]
      rw [if_pos (by rw [hs, add_zero]; exact hb)]
      rw [hs, add_zero, div_self (ne_of_gt hb), one_mul]
      exact roundTo_hundred
  · intro hs hb
    constructor
    · simp only [calculateBuySellRatio]
      rw [if_neg (by rw [hs]; exact lt_irrefl 0), if_neg (by rw [hb]; exact lt_irrefl 0)]
      simp [roundTo_one]
    · simp only [calculateBuySellRatio]
      rw [if_neg (by rw [hs, hb]; simp)]
      exact roundTo_fifty
  · intro ht
    simp only [calculateBuySellRatio]
    rw [if_pos ht]

/-- Concrete all-buy window for the amended C8 theorem. -/
def tradeBuy : MTrade :=
  { marketId := 1, tokenId := 7, side := "BUY", price := 1 / 2, size := 100, timestamp := 10 }

theorem pyUpper_buy_eq : pyUpper "BUY" = "BUY" := by decide

theorem sel_tradeBuy : selectedTrades [tradeBuy] 1 none 0 = [tradeBuy] := by
  simp only [selectedTrades, List.filter_cons, tradeBuy]
  norm_num

theorem metrics_c8_witness :
    (calculateBuySellRatio [tradeBuy] 1 none 0).buySellRatio = none ∧
    (calculateBuySellRatio [tradeBuy] 1 none 0).buyPercentage = 100 :=
  (metrics_buy_sell_ratio_correct [tradeBuy] 1 none 0).2.1
    (by rw [sellVolumeOf, sel_tradeBuy]; simp [List.filter_cons, tradeBuy, pyUpper_buy_eq])
    (by rw [buyVolumeOf, sel_tradeBuy]; simp [List.filter_cons, tradeBuy, pyUpper_buy_eq])

end Metrics

/-! ## C6: whale detector tail (`src/dashboard/whale_detector.py`)

`WhaleDetector.detect_new_whales`.  The `trades` table is a list of rows
with their autoincrement ids; the `sync_state` table is an association
list; `INSERT OR IGNORE INTO whale_trades` checks the `(tx_hash,
log_index)` unique key; `ORDER BY t.id ASC` is insertion sort by id. -/

namespace Whale

structure WTrade where
  id : ℕ
  txHash : String
  logIndex : ℕ
  marketId : ℕ
  maker : String
  side : String
  outcome : String
  price : ℚ
  size : ℚ
  blockNumber : ℕ
  timestamp : String
deriving DecidableEq

structure WMarket where
  id : ℕ
  slug : Option String
  question : Option String
deriving DecidableEq

/-- One row of the tail query's result set (trade joined to market). -/
structure WhaleHit where
  id : ℕ
  txHash : String
  logIndex : ℕ
  marketId : ℕ
  trader : String
  side : String
  outcome : String
  price : ℚ
  size : ℚ
  usdValue : ℚ
  blockNumber : ℕ
  timestamp : String
  marketSlug : Option String
  question : Option String
deriving DecidableEq

structure WhaleRow where
  txHash : String
  logIndex : ℕ
  marketId : ℕ
  trader : String
  side : String
  outcome : String
  price : ℚ
  size : ℚ
  usdValue : ℚ
  blockNumber : ℕ
  timestamp : String
deriving DecidableEq

structure WhaleDB where
  trades : List WTrade
  markets : List WMarket
  whaleTrades : List WhaleRow
  syncState : List (String × ℕ)
deriving DecidableEq

def lookupSyncW (db : WhaleDB) (key : String) : Option ℕ :=
  (db.syncState.find? (fun kv => kv.1 == key)).map (fun kv => kv.2)

/-- `INSERT OR REPLACE INTO sync_state`. -/
def setSyncW (ss : List (String × ℕ)) (key : String) (v : ℕ) : List (String × ℕ) :=
  if ss.any (fun kv => kv.1 == key) then
    ss.map (fun kv => if kv.1 == key then (key, v) else kv)
  else ss ++ [(key, v)]

/-- The `WHERE t.id > ? AND (t.price * t.size) > ?` predicate. -/
def whalePred (threshold : ℚ) (cursor : ℕ) (t : WTrade) : Bool :=
  decide (cursor < t.id) && decide (threshold < t.price * t.size)

/-- The row the tail query returns for trade `t` (LEFT JOIN markets). -/
def hitOf (db : WhaleDB) (t : WTrade) : WhaleHit :=
  { id := t.id, txHash := t.txHash, logIndex := t.logIndex, marketId := t.marketId
    trader := t.maker, side := t.side, outcome := t.outcome, price := t.price, size := t.size
    usdValue := t.price * t.size, blockNumber := t.blockNumber, timestamp := t.timestamp
    marketSlug := (db.markets.find? (fun mk => mk.id == t.marketId)).bind (fun mk => mk.slug)
    question := (db.markets.find? (fun mk => mk.id == t.marketId)).bind (fun mk => mk.question) }

def whaleRowOf (w : WhaleHit) : WhaleRow :=
  { txHash := w.txHash, logIndex := w.logIndex, marketId := w.marketId, trader := w.trader
    side := w.side, outcome := w.outcome, price := w.price, size := w.size
    usdValue := w.usdValue, blockNumber := w.blockNumber, timestamp := w.timestamp }

def relById (a b : WTrade) : Prop := a.id ≤ b.id

instance : DecidableRel relById := fun a b => Nat.decLe a.id b.id

instance : IsTotal WTrade relById := ⟨fun a b => Nat.le_total a.id b.id⟩

instance : IsTrans WTrade relById := ⟨fun _ _ _ h1 h2 => Nat.le_trans h1 h2⟩

/-- `WhaleDetector.detect_new_whales()`: returns the broadcast batch and
the database after the inserts, cursor update and commit. -/
def detectNewWhales (threshold : ℚ) (db : WhaleDB) : List WhaleHit × WhaleDB :=
  let cursor := (lookupSyncW db "whale_sync").getD 0
  let newTrades := List.insertionSort relById (db.trades.filter (whalePred threshold cursor))
  let newWhales := newTrades.map (hitOf db)
  let wt := newWhales.foldl
    (fun acc w =>
      if acc.any (fun r => r.txHash == w.txHash && r.logIndex == w.logIndex) then acc
      else acc ++ [whaleRowOf w]) db.whaleTrades
  let sync1 :=
    if newWhales.isEmpty then db.syncState
    else setSyncW db.syncState "whale_sync" ((newWhales.map (fun w => w.id)).foldl max 0)
  (newWhales, { db with whaleTrades := wt, syncState := sync1 })

theorem whale_insert_subset (l : List WhaleHit) :
    ∀ base : List WhaleRow, ∀ r ∈ base, r ∈ l.foldl
      (fun acc w =>
        if acc.any (fun r => r.txHash == w.txHash && r.logIndex == w.logIndex) then acc
        else acc ++ [whaleRowOf w]) base := by
  induction l with
  | nil => intro base r hr; exact hr
  | cons w ws ih =>
    intro base r hr
    simp only [List.foldl_cons]
    by_cases hb : (base.any (fun r => r.txHash == w.txHash && r.logIndex == w.logIndex)) = true
    · rw [if_pos hb]
      exact ih base r hr
    · rw [if_neg hb]
      exact ih _ r (List.mem_append.mpr (Or.inl hr))

theorem whale_insert_key (l : List WhaleHit) :
    ∀ base : List WhaleRow, ∀ w ∈ l, ∃ r ∈ l.foldl
      (fun acc w =>
        if acc.any (fun r => r.txHash == w.txHash && r.logIndex == w.logIndex) then acc
        else acc ++ [whaleRowOf w]) base,
      r.txHash = w.txHash ∧ r.logIndex = w.logIndex := by
  induction l with
  | nil => intro base w hw; cases hw
  | cons x xs ih =>
    intro base w hw
    simp only [List.foldl_cons]
    rcases List.mem_cons.mp hw with hw1 | hw1
    · subst hw1
      by_cases hb : (base.any (fun r => r.txHash == w.txHash && r.logIndex == w.logIndex)) = true
      · rw [if_pos hb]
        rcases List.any_eq_true.mp hb with ⟨r, hr, hkey⟩
        rcases (Bool.and_eq_true _ _).mp hkey with ⟨h1, h2⟩
        exact ⟨r, whale_insert_subset xs base r hr, eq_of_beq h1, eq_of_beq h2⟩
      · rw [if_neg hb]
        refine ⟨whaleRowOf w, whale_insert_subset xs _ _ ?_, rfl, rfl⟩
        exact List.mem_append.mpr (Or.inr (List.mem_singleton.mpr rfl))
    · by_cases hb : (base.any (fun r => r.txHash == x.txHash && r.logIndex == x.logIndex)) = true
      · rw [if_pos hb]
        exact ih base w hw1
      · rw [if_neg hb]
        exact ih _ w hw1

theorem foldl_max_le_mem (l : List ℕ) : ∀ a : ℕ, ∀ x ∈ l, x ≤ l.foldl max a := by
  induction l with
  | nil => intro a x hx; cases hx
  | cons y ys ih =>
    intro a x hx
    rcases List.mem_cons.mp hx with h | h
    · subst h
      exact le_trans (le_max_right a x) (Store.le_foldl_max id ys (max a x))
    · exact ih (max a y) x h

theorem foldl_max_mem (l : List ℕ) : ∀ a : ℕ, l.foldl max a = a ∨ l.foldl max a ∈ l := by
  induction l with
  | nil => intro a; exact Or.inl rfl
  | cons x xs ih =>
    intro a
    simp only [List.foldl_cons]
    rcases ih (max a x) with h | h
    · rw [h]
      rcases Nat.le_total x a with hxa | hax
      · exact Or.inl (max_eq_left hxa)
      · exact Or.inr (List.mem_cons.mpr (Or.inl (max_eq_right hax)))
    · exact Or.inr (List.mem_cons.mpr (Or.inr h))

theorem find_map_replace (key : String) (v : ℕ) :
    ∀ ss : List (String × ℕ), ss.any (fun kv => kv.1 == key) = true →
      ((ss.map (fun kv => if kv.1 == key then (key, v) else kv)).find?
        (fun kv => kv.1 == key)) = some (key, v) := by
  intro ss
  induction ss with
  | nil => intro h; simp at h
  | cons kv tl ih =>
    intro h
    simp only [List.map_cons]
    by_cases hk : (kv.1 == key) = true
    · rw [if_pos hk, List.find?_cons_of_pos _ (by simp)]
    · rw [if_neg hk]
      have hk' : (kv.1 == key) = false := by rwa [Bool.not_eq_true] at hk
      simp only [List.find?_cons, hk']
      apply ih
      simp only [List.any_cons, hk', Bool.false_or] at h
      exact h

theorem find_setSyncW (key : String) (v : ℕ) (ss : List (String × ℕ)) :
    ((setSyncW ss key v).find? (fun kv => kv.1 == key)) = some (key, v) := by
  unfold setSyncW
  by_cases h : ss.any (fun kv => kv.1 == key) = true
  · rw [if_pos h]
    exact find_map_replace key v ss h
  · rw [if_neg h, List.find?_append]
    have hnone : ss.find? (fun kv => kv.1 == key) = none := by
      rw [List.find?_eq_none]
      intro kv hkv hp
      exact h (List.any_eq_true.mpr ⟨kv, hkv, hp⟩)
    rw [hnone]
    simp [List.find?]

def wtr (i : ℕ) (h : String) (v : ℚ) : WTrade :=
  { id := i, txHash := h, logIndex := 0, marketId := 1, maker := "mk", side := "BUY",
    outcome := "YES", price := 1, size := v, blockNumber := 10, timestamp := "T" }

/-- The spec's scenario: pre-seeded trades ids 1..5, usd values
[500, 1500, 1500, 800, 2000], empty whale tables, no cursor. -/
def scenarioDB : WhaleDB :=
  { trades := [wtr 1 "ha" 500, wtr 2 "hb" 1500, wtr 3 "hc" 1500, wtr 4 "hd" 800, wtr 5 "he" 2000],
    markets := [], whaleTrades := [], syncState := [] }

theorem detect_fst (θ : ℚ) (db : WhaleDB) :
    (detectNewWhales θ db).1 =
      (List.insertionSort relById
        (db.trades.filter (whalePred θ ((lookupSyncW db "whale_sync").getD 0)))).map
        (hitOf db) := rfl

theorem detect_whaleTrades (θ : ℚ) (db : WhaleDB) :
    (detectNewWhales θ db).2.whaleTrades =
      ((List.insertionSort relById
        (db.trades.filter (whalePred θ ((lookupSyncW db "whale_sync").getD 0)))).map
        (hitOf db)).foldl
        (fun acc w =>
          if acc.any (fun r => r.txHash == w.txHash && r.logIndex == w.logIndex) then acc
          else acc ++ [whaleRowOf w]) db.whaleTrades := rfl

theorem detect_syncState (θ : ℚ) (db : WhaleDB) :
    (detectNewWhales θ db).2.syncState =
      if ((List.insertionSort relById
          (db.trades.filter (whalePred θ ((lookupSyncW db "whale_sync").getD 0)))).map
          (hitOf db)).isEmpty then db.syncState
      else setSyncW db.syncState "whale_sync"
        ((((List.insertionSort relById
          (db.trades.filter (whalePred θ ((lookupSyncW db "whale_sync").getD 0)))).map
          (hitOf db)).map (fun w => w.id)).foldl max 0) := rfl

theorem detect_snd (θ : ℚ) (db : WhaleDB) :
    (detectNewWhales θ db).2 =
      { db with
        whaleTrades := ((List.insertionSort relById
          (db.trades.filter (whalePred θ ((lookupSyncW db "whale_sync").getD 0)))).map
          (hitOf db)).foldl
          (fun acc w =>
            if acc.any (fun r => r.txHash == w.txHash && r.logIndex == w.logIndex) then acc
            else acc ++ [whaleRowOf w]) db.whaleTrades,
        syncState :=
          if ((List.insertionSort relById
              (db.trades.filter (whalePred θ ((lookupSyncW db "whale_sync").getD 0)))).map
              (hitOf db)).isEmpty then db.syncState
          else setSyncW db.syncState "whale_sync"
            ((((List.insertionSort relById
              (db.trades.filter (whalePred θ ((lookupSyncW db "whale_sync").getD 0)))).map
              (hitOf db)).map (fun w => w.id)).foldl max 0) } := rfl

theorem scenario_filter :
    scenarioDB.trades.filter (whalePred 1000 ((lookupSyncW scenarioDB "whale_sync").getD 0)) =
      [wtr 2 "hb" 1500, wtr 3 "hc" 1500, wtr 5 "he" 2000] := by
  have hc : (lookupSyncW scenarioDB "whale_sync").getD 0 = 0 := rfl
  rw [hc]
  have e1 : whalePred 1000 0 (wtr 1 "ha" 500) = false := by
    simp only [whalePred, wtr, Bool.and_eq_false_iff, decide_eq_false_iff_not]
    norm_num
  have e2 : whalePred 1000 0 (wtr 2 "hb" 1500) = true := by
    simp only [whalePred, wtr, Bool.and_eq_true, decide_eq_true_eq]
    norm_num
  have e3 : whalePred 1000 0 (wtr 3 "hc" 1500) = true := by
    simp only [whalePred, wtr, Bool.and_eq_true, decide_eq_true_eq]
    norm_num
  have e4 : whalePred 1000 0 (wtr 4 "hd" 800) = false := by
    simp only [whalePred, wtr, Bool.and_eq_false_iff, decide_eq_false_iff_not]
    norm_num
  have e5 : whalePred 1000 0 (wtr 5 "he" 2000) = true := by
    simp only [whalePred, wtr, Bool.and_eq_true, decide_eq_true_eq]
    norm_num
  simp [scenarioDB, List.filter_cons, e1, e2, e3, e4, e5]

theorem scenario_db2 :
    (detectNewWhales 1000 scenarioDB).2 =
      { scenarioDB with
        whaleTrades := [whaleRowOf (hitOf scenarioDB (wtr 2 "hb" 1500)),
          whaleRowOf (hitOf scenarioDB (wtr 3 "hc" 1500)),
          whaleRowOf (hitOf scenarioDB (wtr 5 "he" 2000))],
        syncState := [("whale_sync", 5)] } := by
  rw [detect_snd, scenario_filter]
  rfl

/-- **C6**: `detect_new_whales` reads the `whale_sync` cursor (0 when absent),
returns exactly the trades with `id > cursor` and `price*size > threshold`, in
ascending id order, inserts each into `whale_trades` with OR IGNORE (existing
rows kept, every returned hit's key present afterwards), leaves the cursor
unchanged on an empty batch and otherwise sets it to the maximum id of the
batch; on the spec's scenario (ids 1..5, values [500,1500,1500,800,2000],
threshold 1000) the first call returns ids [2,3,5], the cursor becomes 5, and
a second call returns the empty list. -/
theorem whale_detect_new_whales_correct (θ : ℚ) (db : WhaleDB) :
    (∀ t ∈ db.trades,
        (lookupSyncW db "whale_sync").getD 0 < t.id → θ < t.price * t.size →
        hitOf db t ∈ (detectNewWhales θ db).1) ∧
    (∀ w ∈ (detectNewWhales θ db).1, ∃ t ∈ db.trades,
        w = hitOf db t ∧ (lookupSyncW db "whale_sync").getD 0 < t.id ∧
        θ < t.price * t.size) ∧
    List.Pairwise (fun a b : WhaleHit => a.id ≤ b.id) (detectNewWhales θ db).1 ∧
    (∀ r ∈ db.whaleTrades, r ∈ (detectNewWhales θ db).2.whaleTrades) ∧
    (∀ w ∈ (detectNewWhales θ db).1, ∃ r ∈ (detectNewWhales θ db).2.whaleTrades,
        r.txHash = w.txHash ∧ r.logIndex = w.logIndex) ∧
    ((detectNewWhales θ db).1 = [] → (detectNewWhales θ db).2.syncState = db.syncState) ∧
    ((detectNewWhales θ db).1 ≠ [] → ∃ v,
        lookupSyncW (detectNewWhales θ db).2 "whale_sync" = some v ∧
        v ∈ (detectNewWhales θ db).1.map (fun w => w.id) ∧
        ∀ w ∈ (detectNewWhales θ db).1, w.id ≤ v) ∧
    (detectNewWhales 1000 scenarioDB).1.map (fun w => w.id) = [2, 3, 5] ∧
    lookupSyncW (detectNewWhales 1000 scenarioDB).2 "whale_sync" = some 5 ∧
    (detectNewWhales 1000 (detectNewWhales 1000 scenarioDB).2).1 = [] := by
  refine ⟨?_, ?_, ?_, ?_, ?_, ?_, ?_, ?_, ?_, ?_⟩
  · intro t ht hc hp
    rw [detect_fst]
    refine List.mem_map_of_mem (hitOf db) ((List.perm_insertionSort relById _).mem_iff.mpr
      (List.mem_filter.mpr ⟨ht, ?_⟩))
    simp only [whalePred, Bool.and_eq_true, decide_eq_true_eq]
    exact ⟨hc, hp⟩
  · intro w hw
    rw [detect_fst] at hw
    rcases List.mem_map.mp hw with ⟨t, ht, rfl⟩
    rcases List.mem_filter.mp ((List.perm_insertionSort relById _).subset ht) with ⟨htr, hpred⟩
    simp only [whalePred, Bool.and_eq_true, decide_eq_true_eq] at hpred
    exact ⟨t, htr, rfl, hpred.1, hpred.2⟩
  · rw [detect_fst]
    exact List.Pairwise.map (hitOf db) (fun a b h => h) (List.sorted_insertionSort relById _)
  · intro r hr
    rw [detect_whaleTrades]
    exact whale_insert_subset _ db.whaleTrades r hr
  · intro w hw
    rw [detect_fst] at hw
    rw [detect_whaleTrades]
    exact whale_insert_key _ db.whaleTrades w hw
  · intro he
    rw [detect_fst] at he
    rw [detect_syncState, he]
    rfl
  · intro hne
    rw [detect_fst] at hne
    have hne' : ¬ ((((List.insertionSort relById
        (db.trades.filter (whalePred θ ((lookupSyncW db "whale_sync").getD 0)))).map
        (hitOf db)).isEmpty) = true) := by
      simpa [List.isEmpty_iff] using hne
    rw [detect_fst]
    refine ⟨(((List.insertionSort relById
        (db.trades.filter (whalePred θ ((lookupSyncW db "whale_sync").getD 0)))).map
        (hitOf db)).map (fun w => w.id)).foldl max 0, ?_, ?_, ?_⟩
    · simp only [lookupSyncW]
      rw [detect_syncState, if_neg hne', find_setSyncW]
      rfl
    · rcases foldl_max_mem ((((List.insertionSort relById
          (db.trades.filter (whalePred θ ((lookupSyncW db "whale_sync").getD 0)))).map
          (hitOf db)).map (fun w => w.id))) 0 with h0 | hmem
      · exfalso
        obtain ⟨w, hw⟩ := List.exists_mem_of_ne_nil _ hne
        have hwid := foldl_max_le_mem _ 0 w.id (List.mem_map_of_mem (fun w => w.id) hw)
        obtain ⟨t, ht, rfl⟩ := List.mem_map.mp hw
        have hpred :=
          (List.mem_filter.mp ((List.perm_insertionSort relById _).subset ht)).2
        simp only [whalePred, Bool.and_eq_true, decide_eq_true_eq] at hpred
        have hid : (hitOf db t).id = t.id := rfl
        rw [hid] at hwid
        omega
      · exact hmem
    · intro w hw
      exact foldl_max_le_mem _ 0 w.id (List.mem_map_of_mem (fun w => w.id) hw)
  · rw [detect_fst, scenario_filter]
    rfl
  · rw [scenario_db2]
    rfl
  · rw [scenario_db2]
    rfl

theorem whale_c6_witness :
    (detectNewWhales 1000 scenarioDB).1.map (fun w => w.id) = [2, 3, 5] ∧
    lookupSyncW (detectNewWhales 1000 scenarioDB).2 "whale_sync" = some 5 :=
  ⟨(whale_detect_new_whales_correct 1000 scenarioDB).2.2.2.2.2.2.2.1,
   (whale_detect_new_whales_correct 1000 scenarioDB).2.2.2.2.2.2.2.2.1⟩

end Whale

/-! ## C9: sync job mutual exclusion (`src/scheduler/jobs.py`)

`SyncScheduler.sync_job` runs on a single asyncio event loop.  Each
invocation is a task; between `await` points other tasks may run.  The
guard `if self.is_syncing: return` and the assignment
`self.is_syncing = True` happen with no `await` in between, so they are
one atomic step (`enter`).  The body's awaits are `work` steps; every
exit path — normal completion or exception — runs the `finally:` that
resets `is_syncing` (`finish`, allowed at any remaining-step count to
model an exception escaping early).  A tick that observes
`is_syncing = True` resolves to `done` without touching anything
(`skip`). -/

namespace Sched

inductive Phase where
  | pending : Phase
  | body : ℕ → Phase
  | done : Phase
deriving DecidableEq

structure SchedState where
  isSyncing : Bool
  syncCount : ℕ
  tasks : List Phase
deriving DecidableEq

def initSched : SchedState := ⟨false, 0, []⟩

def isBody : Phase → Bool
  | Phase.body _ => true
  | _ => false

/-- Number of invocations currently inside the body of `sync_job`. -/
def bodyCount (s : SchedState) : ℕ := (s.tasks.filter isBody).length

inductive SyncStep : SchedState → SchedState → Prop where
  | spawn (s : SchedState) :
      SyncStep s { s with tasks := s.tasks ++ [Phase.pending] }
  | skip (c : ℕ) (pre post : List Phase) :
      SyncStep ⟨true, c, pre ++ Phase.pending :: post⟩
               ⟨true, c, pre ++ Phase.done :: post⟩
  | enter (c k : ℕ) (pre post : List Phase) :
      SyncStep ⟨false, c, pre ++ Phase.pending :: post⟩
               ⟨true, c + 1, pre ++ Phase.body k :: post⟩
  | work (sy : Bool) (c k : ℕ) (pre post : List Phase) :
      SyncStep ⟨sy, c, pre ++ Phase.body (k + 1) :: post⟩
               ⟨sy, c, pre ++ Phase.body k :: post⟩
  | finish (sy : Bool) (c k : ℕ) (pre post : List Phase) :
      SyncStep ⟨sy, c, pre ++ Phase.body k :: post⟩
               ⟨false, c, pre ++ Phase.done :: post⟩

theorem bodyCount_decomp_pending (sy : Bool) (c : ℕ) (pre post : List Phase) :
    bodyCount ⟨sy, c, pre ++ Phase.pending :: post⟩ =
      (pre.filter isBody).length + (post.filter isBody).length := by
  simp [bodyCount, List.filter_append, List.filter_cons, isBody] <;> omega

theorem bodyCount_decomp_done (sy : Bool) (c : ℕ) (pre post : List Phase) :
    bodyCount ⟨sy, c, pre ++ Phase.done :: post⟩ =
      (pre.filter isBody).length + (post.filter isBody).length := by
  simp [bodyCount, List.filter_append, List.filter_cons, isBody] <;> omega

theorem bodyCount_decomp_body (sy : Bool) (c k : ℕ) (pre post : List Phase) :
    bodyCount ⟨sy, c, pre ++ Phase.body k :: post⟩ =
      (pre.filter isBody).length + ((post.filter isBody).length + 1) := by
  simp [bodyCount, List.filter_append, List.filter_cons, isBody] <;> omega

theorem bodyCount_spawn (s : SchedState) :
    bodyCount { s with tasks := s.tasks ++ [Phase.pending] } = bodyCount s := by
  simp [bodyCount, List.filter_append, isBody]

theorem sched_inv_step (s t : SchedState)
    (h1 : bodyCount s ≤ 1) (h2 : s.isSyncing = false → bodyCount s = 0)
    (h : SyncStep s t) :
    bodyCount t ≤ 1 ∧ (t.isSyncing = false → bodyCount t = 0) := by
  cases h with
  | spawn s =>
    rw [bodyCount_spawn]
    exact ⟨h1, h2⟩
  | skip c pre post =>
    rw [bodyCount_decomp_pending] at h1
    rw [bodyCount_decomp_done]
    exact ⟨h1, fun hf => by cases hf⟩
  | enter c k pre post =>
    have h0 := h2 rfl
    rw [bodyCount_decomp_pending] at h0
    rw [bodyCount_decomp_body]
    exact ⟨by omega, fun hf => by cases hf⟩
  | work sy c k pre post =>
    rw [bodyCount_decomp_body] at h1 h2
    rw [bodyCount_decomp_body]
    exact ⟨h1, h2⟩
  | finish sy c k pre post =>
    rw [bodyCount_decomp_body] at h1
    rw [bodyCount_decomp_done]
    exact ⟨by omega, fun _ => by omega⟩

theorem sched_inv_reachable (s : SchedState)
    (h : Relation.ReflTransGen SyncStep initSched s) :
    bodyCount s ≤ 1 ∧ (s.isSyncing = false → bodyCount s = 0) := by
  induction h with
  | refl => exact ⟨by decide, fun _ => by decide⟩
  | tail hr hstep ih => exact sched_inv_step _ _ ih.1 ih.2 hstep

/-- **C9**: at most one `sync_job` body runs at any time.  In every state
reachable from the initial scheduler state, at most one invocation is inside
the body (no decomposition of the task list exhibits two bodies), and
`is_syncing = false` implies none is.  Moreover any step taken while
`is_syncing` is true leaves `sync_count` unchanged and starts no new body
(the guard's skip), a step that starts a body is the atomic
guard-check-and-set (it requires `is_syncing = false`, sets it true and
increments `sync_count`), and a step that exits a body resets `is_syncing`
to false (the `finally`). -/
theorem sched_sync_job_non_overlap :
    (∀ s : SchedState, Relation.ReflTransGen SyncStep initSched s →
      (bodyCount s ≤ 1 ∧ (s.isSyncing = false → bodyCount s = 0)) ∧
      ∀ (l1 l2 l3 : List Phase) (b1 b2 : Phase),
        s.tasks = l1 ++ b1 :: (l2 ++ b2 :: l3) →
        isBody b1 = true → isBody b2 = true → False) ∧
    (∀ s t : SchedState, SyncStep s t → s.isSyncing = true →
      t.syncCount = s.syncCount ∧ bodyCount t ≤ bodyCount s) ∧
    (∀ s t : SchedState, SyncStep s t → bodyCount s < bodyCount t →
      s.isSyncing = false ∧ t.isSyncing = true ∧ t.syncCount = s.syncCount + 1 ∧
      bodyCount t = bodyCount s + 1) ∧
    (∀ s t : SchedState, SyncStep s t → bodyCount t < bodyCount s →
      t.isSyncing = false) := by
  refine ⟨?_, ?_, ?_, ?_⟩
  · intro s hs
    have hinv := sched_inv_reachable s hs
    refine ⟨hinv, ?_⟩
    intro l1 l2 l3 b1 b2 htasks hb1 hb2
    have hle := hinv.1
    have hcount : bodyCount s = (s.tasks.filter isBody).length := rfl
    rw [htasks] at hcount
    simp [List.filter_append, List.filter_cons, hb1, hb2] at hcount
    omega
  · intro s t hstep hsy
    cases hstep with
    | spawn s =>
      exact ⟨rfl, le_of_eq (bodyCount_spawn s)⟩
    | skip c pre post =>
      refine ⟨rfl, le_of_eq ?_⟩
      rw [bodyCount_decomp_pending, bodyCount_decomp_done]
    | enter c k pre post => cases hsy
    | work sy c k pre post =>
      refine ⟨rfl, le_of_eq ?_⟩
      rw [bodyCount_decomp_body, bodyCount_decomp_body]
    | finish sy c k pre post =>
      refine ⟨rfl, ?_⟩
      rw [bodyCount_decomp_body, bodyCount_decomp_done]
      omega
  · intro s t hstep hlt
    cases hstep with
    | spawn s =>
      rw [bodyCount_spawn] at hlt
      omega
    | skip c pre post =>
      rw [bodyCount_decomp_pending, bodyCount_decomp_done] at hlt
      omega
    | enter c k pre post =>
      refine ⟨rfl, rfl, rfl, ?_⟩
      rw [bodyCount_decomp_pending, bodyCount_decomp_body]
      omega
    | work sy c k pre post =>
      rw [bodyCount_decomp_body, bodyCount_decomp_body] at hlt
      omega
    | finish sy c k pre post =>
      rw [bodyCount_decomp_body, bodyCount_decomp_done] at hlt
      omega
  · intro s t hstep hlt
    cases hstep with
    | spawn s =>
      rw [bodyCount_spawn] at hlt
      omega
    | skip c pre post =>
      rw [bodyCount_decomp_pending, bodyCount_decomp_done] at hlt
      omega
    | enter c k pre post =>
      rw [bodyCount_decomp_pending, bodyCount_decomp_body] at hlt
      omega
    | work sy c k pre post =>
      rw [bodyCount_decomp_body, bodyCount_decomp_body] at hlt
      omega
    | finish sy c k pre post => rfl

theorem sched_c9_witness :
    (bodyCount initSched ≤ 1 ∧ (initSched.isSyncing = false → bodyCount initSched = 0)) ∧
    ∀ (l1 l2 l3 : List Phase) (b1 b2 : Phase),
      initSched.tasks = l1 ++ b1 :: (l2 ++ b2 :: l3) →
      isBody b1 = true → isBody b2 = true → False :=
  sched_sync_job_non_overlap.1 initSched Relation.ReflTransGen.refl

end Sched

/-! ## C2-C5: the trades indexer (`src/core/indexer.py`, `src/core/db/store.py`,
`src/core/discovery.py`)

The embedding keeps the SQLite connection as a pair (last committed
snapshot, current transaction); `insert_trade` works on the transaction
only (its commit is deferred), `set_sync_state` and discovery's
`upsert_market` commit.  Token ids are the naturals the code renders with
`str(...)` (injective, so string comparison is ℕ comparison); floats are
embedded as ℚ.  The environment bundles the chain (`w3.eth.get_logs`,
already decoded — `decode_order_filled_log` is pure), the per-attempt RPC
outcome, block timestamps (`get_block_timestamp`'s cache is transparent
memoization of a pure lookup), the Gamma API response per token id
(`fetch_market_by_token_id_from_gamma`), and `calculate_token_ids` as an
abstract pure function of (conditionId, negRisk) — `verify_token_ids`
replaces the Gamma token ids with the calculated ones whenever the
calculation succeeds, and falls back to Gamma's on exception.  Market rows
keep the columns the indexer reads or writes (id, condition_id,
yes/no_token_id, trade_count).  Two ghost fields record the run: every
commit (snapshot, whether it was a `trade_sync` checkpoint, and the logs
submitted so far), and the list of logs submitted to `process_trade`.
The optional `tx_hash` filter of `run_indexer` (a debugging parameter
defaulting to None) is not modelled. -/

namespace Indexer

structure DecodedLog where
  txHash : String
  logIndex : ℕ
  blockNumber : ℕ
  maker : String
  taker : String
  makerAssetId : ℕ
  takerAssetId : ℕ
  makerAmountFilled : ℕ
  takerAmountFilled : ℕ
  fee : ℕ
deriving DecidableEq

structure TradeDetails where
  tokenId : ℕ
  side : String
  price : ℚ
  size : ℚ
deriving DecidableEq

/-- `determine_trade_details`. -/
def determineTradeDetails (d : DecodedLog) : TradeDetails :=
  let p : ℕ × String × ℕ × ℕ :=
    if d.makerAssetId = 0 then
      (d.takerAssetId, "BUY", d.makerAmountFilled, d.takerAmountFilled)
    else
      (d.makerAssetId, "SELL", d.takerAmountFilled, d.makerAmountFilled)
  { tokenId := p.1, side := p.2.1,
    price := if 0 < p.2.2.2 then (p.2.2.1 : ℚ) / (p.2.2.2 : ℚ) else 0,
    size := (p.2.2.2 : ℚ) / 1000000 }

structure MarketRowIdx where
  id : ℕ
  conditionId : String
  yesTokenId : Option ℕ
  noTokenId : Option ℕ
  tradeCount : ℕ
deriving DecidableEq

structure TradeRow where
  id : ℕ
  marketId : ℕ
  txHash : String
  logIndex : ℕ
  blockNumber : ℕ
  maker : String
  taker : String
  side : String
  outcome : String
  price : ℚ
  size : ℚ
  fee : ℚ
  tokenId : ℕ
  timestamp : ℕ
deriving DecidableEq

structure DBData where
  markets : List MarketRowIdx
  trades : List TradeRow
  syncState : List (String × ℕ)
deriving DecidableEq

def emptyDB : DBData := ⟨[], [], []⟩

/-- The sqlite connection: last committed snapshot and open transaction. -/
structure Conn where
  committed : DBData
  txn : DBData
deriving DecidableEq

def commitConn (c : Conn) : Conn := ⟨c.txn, c.txn⟩

/-- `fetch_market_by_token_id`: `WHERE yes_token_id = ? OR no_token_id = ?`. -/
def fetchMarketByTokenId (db : DBData) (tokenId : ℕ) : Option MarketRowIdx :=
  db.markets.find? (fun m => m.yesTokenId == some tokenId || m.noTokenId == some tokenId)

/-- `get_sync_state`. -/
def getSyncState (db : DBData) (key : String) : Option ℕ :=
  (db.syncState.find? (fun kv => kv.1 == key)).map (fun kv => kv.2)

/-- The `sync_state` write of `set_sync_state` (`INSERT ... ON CONFLICT(key)
DO UPDATE`), same upsert as the whale detector's. -/
def setSyncStateData (db : DBData) (key : String) (v : ℕ) : DBData :=
  { db with syncState := Whale.setSyncW db.syncState key v }

def maxTradeId (db : DBData) : ℕ := db.trades.foldl (fun a r => max a r.id) 0

def maxMarketId (db : DBData) : ℕ := db.markets.foldl (fun a m => max a m.id) 0

/-- `insert_trade`: INSERT (IntegrityError on the `(tx_hash, log_index)`
unique key returns None and leaves the transaction unchanged), then
`trade_count = trade_count + 1` for the trade's market; no commit. -/
def insertTrade (db : DBData) (t : TradeRow) : Option ℕ × DBData :=
  if db.trades.any (fun r => r.txHash == t.txHash && r.logIndex == t.logIndex) then
    (none, db)
  else
    let newId := maxTradeId db + 1
    (some newId,
     { db with
        trades := db.trades ++ [{ t with id := newId }],
        markets :=
          if t.marketId = 0 then db.markets
          else db.markets.map (fun m =>
            if m.id == t.marketId then { m with tradeCount := m.tradeCount + 1 } else m) })

/-- `upsert_market`, restricted to the columns the indexer path uses: keyed
by `condition_id`, `COALESCE(?, yes_token_id)` / `COALESCE(?, no_token_id)`
on update, autoincrement insert. -/
def upsertMarketIdx (db : DBData) (condId : String) (yes no : Option ℕ) : ℕ × DBData :=
  match db.markets.find? (fun m => m.conditionId == condId) with
  | some m =>
    (m.id,
     { db with markets := db.markets.map (fun r =>
        if r.id == m.id then
          { r with yesTokenId := yes.or r.yesTokenId, noTokenId := no.or r.noTokenId }
        else r) })
  | none =>
    let newId := maxMarketId db + 1
    (newId,
     { db with markets := db.markets ++
        [{ id := newId, conditionId := condId, yesTokenId := yes, noTokenId := no,
           tradeCount := 0 }] })

/-- What the Gamma API returns for a token id. -/
structure GammaMarket where
  conditionId : String
  negRisk : Bool
  yesTokenId : Option ℕ
  noTokenId : Option ℕ
deriving DecidableEq

/-- The token ids `process_market` stores: the calculated ones when
`calculate_token_ids` succeeds, Gamma's `clobTokenIds` otherwise. -/
def tokensOf (calcIds : String → Bool → Option (ℕ × ℕ)) (g : GammaMarket) :
    Option ℕ × Option ℕ :=
  match calcIds g.conditionId g.negRisk with
  | some (y, n) => (some y, some n)
  | none => (g.yesTokenId, g.noTokenId)

/-- The dict `discover_market_by_token_id` hands back to `process_trade`. -/
structure FoundMarket where
  id : ℕ
  yesTokenId : Option ℕ
  noTokenId : Option ℕ
deriving DecidableEq

structure Env where
  chain : ℕ → List DecodedLog
  rpc : ℕ → ℕ → Bool
  blockTs : ℕ → ℕ
  oracle : ℕ → Option GammaMarket
  calcIds : String → Bool → Option (ℕ × ℕ)

/-- One recorded `conn.commit()`: the snapshot it persisted, whether it was
the per-block `set_sync_state("trade_sync", ...)` checkpoint, and the logs
submitted to `process_trade` up to that commit. -/
structure CommitRec where
  db : DBData
  checkpoint : Bool
  processed : List DecodedLog
deriving DecidableEq

structure RunState where
  conn : Conn
  discovered : List ℕ
  commits : List CommitRec
  processed : List DecodedLog
deriving DecidableEq

def freshRun (db : DBData) : RunState := ⟨⟨db, db⟩, [], [], []⟩

/-- `discover_market_by_token_id` (+ `process_market` + `upsert_market`):
None when Gamma has nothing or the market has no conditionId (nothing
saved, no commit); otherwise the upsert runs and commits mid-transaction. -/
def discoverStep (e : Env) (rs : RunState) (tokenId : ℕ) : Option FoundMarket × RunState :=
  match e.oracle tokenId with
  | none => (none, rs)
  | some g =>
    if g.conditionId = "" then (none, rs)
    else
      let tk := tokensOf e.calcIds g
      let r := upsertMarketIdx rs.conn.txn g.conditionId tk.1 tk.2
      (some { id := r.1, yesTokenId := tk.1, noTokenId := tk.2 },
       { rs with
          conn := ⟨r.2, r.2⟩,
          commits := rs.commits ++ [⟨r.2, false, rs.processed⟩] })

/-- `if yes == token: YES elif no == token: NO else: UNKNOWN`. -/
def outcomeOf (yes no : Option ℕ) (tokenId : ℕ) : String :=
  if yes == some tokenId then "YES" else if no == some tokenId then "NO" else "UNKNOWN"

def tradeRowOf (d : DecodedLog) (mid : ℕ) (outc : String) (ts : ℕ) : TradeRow :=
  let det := determineTradeDetails d
  { id := 0, marketId := mid, txHash := d.txHash, logIndex := d.logIndex,
    blockNumber := d.blockNumber, maker := d.maker, taker := d.taker,
    side := det.side, outcome := outc, price := det.price, size := det.size,
    fee := (d.fee : ℚ) / 1000000, tokenId := det.tokenId, timestamp := ts }

/-- `process_trade`: resolve the market (table lookup, then discovery unless
the token id is in the `discovered_token_ids` cache), then `insert_trade`
into the open transaction. -/
def processTrade (e : Env) (rs : RunState) (d : DecodedLog) : RunState :=
  let rs := { rs with processed := rs.processed ++ [d] }
  let det := determineTradeDetails d
  let ts := e.blockTs d.blockNumber
  match fetchMarketByTokenId rs.conn.txn det.tokenId with
  | some m =>
    { rs with conn := { rs.conn with
        txn := (insertTrade rs.conn.txn
          (tradeRowOf d m.id (outcomeOf m.yesTokenId m.noTokenId det.tokenId) ts)).2 } }
  | none =>
    if rs.discovered.contains det.tokenId then rs
    else
      let r := discoverStep e rs det.tokenId
      let rs2 := { r.2 with discovered := r.2.discovered ++ [det.tokenId] }
      match r.1 with
      | none => rs2
      | some fm =>
        { rs2 with conn := { rs2.conn with
            txn := (insertTrade rs2.conn.txn
              (tradeRowOf d fm.id (outcomeOf fm.yesTokenId fm.noTokenId det.tokenId) ts)).2 } }

/-- The per-block `set_sync_state(conn, "trade_sync", block_num)`: writes the
cursor and commits the block's pending inserts with it. -/
def checkpoint (rs : RunState) (b : ℕ) : RunState :=
  let db1 := setSyncStateData rs.conn.txn "trade_sync" b
  { rs with
      conn := ⟨db1, db1⟩,
      commits := rs.commits ++ [⟨db1, true, rs.processed⟩] }

/-- One iteration of `for block_num in range(current_block, batch_end + 1)`:
process this block's logs, then checkpoint. -/
def processBlock (e : Env) (logs : List DecodedLog) (rs : RunState) (b : ℕ) : RunState :=
  checkpoint
    ((logs.filter (fun l => l.blockNumber == b)).foldl (fun rs l => processTrade e rs l) rs)
    b

/-- `fetch_logs_with_retry`: up to 3 attempts, raising (None) after the last. -/
def fetchWithRetryAux (attemptOk : ℕ → Bool) (logs : List DecodedLog) :
    ℕ → ℕ → Option (List DecodedLog)
  | 0, _ => none
  | fuel + 1, i => if attemptOk i then some logs else fetchWithRetryAux attemptOk logs fuel (i + 1)

def fetchLogsWithRetry (attemptOk : ℕ → Bool) (logs : List DecodedLog) :
    Option (List DecodedLog) :=
  fetchWithRetryAux attemptOk logs 3 0

/-- The logs `get_logs` returns for `[bstart, bend]`. -/
def logsRange (chain : ℕ → List DecodedLog) (bstart bend : ℕ) : List DecodedLog :=
  (List.range' bstart (bend + 1 - bstart)).bind chain

/-- One `while` iteration body: fetch the batch (a failure appends a warning
and skips to the next batch with no checkpoint), else process each block of
the range in order. -/
def processBatch (e : Env) (rs : RunState) (bstart bend : ℕ) : RunState :=
  match fetchLogsWithRetry (e.rpc bstart) (logsRange e.chain bstart bend) with
  | none => rs
  | some logs => (List.range' bstart (bend + 1 - bstart)).foldl (processBlock e logs) rs

def runIndexerAux (e : Env) (bs : ℕ) : ℕ → ℕ → ℕ → RunState → RunState
  | 0, _, _, rs => rs
  | gas + 1, current, toBlock, rs =>
    if current ≤ toBlock then
      let bend := min (current + bs - 1) toBlock
      runIndexerAux e bs gas (bend + 1) toBlock (processBatch e rs current bend)
    else rs

/-- `run_indexer(conn, from_block, to_block, batch_size)`. -/
def runIndexer (e : Env) (fromBlock toBlock bs : ℕ) (rs : RunState) : RunState :=
  runIndexerAux e bs (toBlock + 1 - fromBlock) fromBlock toBlock rs

/-- **C2**: `determine_trade_details` classifies by `maker_asset_id == 0`:
BUY with tokenId = takerAssetId, usdcRaw = makerAmountFilled, tokenRaw =
takerAmountFilled exactly when makerAssetId = 0, otherwise SELL with the
roles swapped; price = usdcRaw / tokenRaw with price 0 on zero tokenRaw
(the trade row is still built, carrying that price), size = tokenRaw / 1e6,
and the persisted row's fee is feeRaw / 1e6. -/
theorem indexer_determine_trade_details_correct (d : DecodedLog) :
    ((determineTradeDetails d).side = "BUY" ↔ d.makerAssetId = 0) ∧
    (d.makerAssetId = 0 →
      determineTradeDetails d =
        { tokenId := d.takerAssetId, side := "BUY",
          price := if 0 < d.takerAmountFilled
            then (d.makerAmountFilled : ℚ) / (d.takerAmountFilled : ℚ) else 0,
          size := (d.takerAmountFilled : ℚ) / 1000000 }) ∧
    (d.makerAssetId ≠ 0 →
      determineTradeDetails d =
        { tokenId := d.makerAssetId, side := "SELL",
          price := if 0 < d.makerAmountFilled
            then (d.takerAmountFilled : ℚ) / (d.makerAmountFilled : ℚ) else 0,
          size := (d.makerAmountFilled : ℚ) / 1000000 }) ∧
    (d.makerAssetId = 0 → d.takerAmountFilled = 0 → (determineTradeDetails d).price = 0) ∧
    (d.makerAssetId ≠ 0 → d.makerAmountFilled = 0 → (determineTradeDetails d).price = 0) ∧
    (∀ (mid ts : ℕ) (outc : String),
      (tradeRowOf d mid outc ts).fee = (d.fee : ℚ) / 1000000 ∧
      (tradeRowOf d mid outc ts).price = (determineTradeDetails d).price ∧
      (tradeRowOf d mid outc ts).size = (determineTradeDetails d).size) := by
  by_cases h : d.makerAssetId = 0 <;>
    simp [determineTradeDetails, tradeRowOf, h] <;> omega

def dEx : DecodedLog :=
  { txHash := "0xa", logIndex := 0, blockNumber := 1, maker := "m", taker := "t",
    makerAssetId := 0, takerAssetId := 7, makerAmountFilled := 50, takerAmountFilled := 100,
    fee := 25 }

theorem indexer_c2_witness :
    dEx.makerAssetId = 0 ∧
    determineTradeDetails dEx =
      { tokenId := dEx.takerAssetId, side := "BUY",
        price := if 0 < dEx.takerAmountFilled
          then (dEx.makerAmountFilled : ℚ) / (dEx.takerAmountFilled : ℚ) else 0,
        size := (dEx.takerAmountFilled : ℚ) / 1000000 } :=
  ⟨rfl, (indexer_determine_trade_details_correct dEx).2.1 rfl⟩

/-- A generic OrderFilled log: BUY of `tok`, 100 raw tokens for 50 raw USDC. -/
def mkLog (tx : String) (b tok : ℕ) : DecodedLog :=
  { txHash := tx, logIndex := 0, blockNumber := b, maker := "mk", taker := "tk",
    makerAssetId := 0, takerAssetId := tok, makerAmountFilled := 50,
    takerAmountFilled := 100, fee := 0 }

/-- C3 scenario: block 5 carries a trade on a known market (token 11)
followed by a trade on an unknown token 99 whose Gamma lookup succeeds, so
discovery's `upsert_market` commits mid-block. -/
def env3 : Env :=
  { chain := fun b => if b = 5 then [mkLog "t1" 5 11, mkLog "t2" 5 99] else [],
    rpc := fun _ _ => true,
    blockTs := fun b => 1000 + b,
    oracle := fun t => if t = 99 then
        some { conditionId := "c2", negRisk := false, yesTokenId := some 99, noTokenId := some 98 }
      else none,
    calcIds := fun _ _ => none }

def m3row : MarketRowIdx :=
  { id := 1, conditionId := "c1", yesTokenId := some 11, noTokenId := some 12, tradeCount := 0 }

def db3 : DBData := { markets := [m3row], trades := [], syncState := [("trade_sync", 4)] }

/-- Bool detector for the C3 violation: some commit persisted a trade above
the committed `trade_sync` cursor. -/
def violatesSync (cs : List CommitRec) : Bool :=
  cs.any (fun c =>
    c.db.trades.any (fun r => (getSyncState c.db "trade_sync").getD 0 < r.blockNumber))

/-- **C3 counterexample**: in the scenario `env3`/`db3` (sync cursor at 4,
indexing block 5), a commit performed during the run — the one issued by
discovery's `upsert_market` in the middle of block 5 — persists the block-5
trade of the known market while `trade_sync` is still 4, so the claimed
after-every-commit invariant `trade_sync ≥ blockNumber of every persisted
trade` fails. -/
theorem indexer_c3_counterexample :
    ∃ c ∈ (runIndexer env3 5 5 1000 (freshRun db3)).commits,
      ∃ r ∈ c.db.trades, (getSyncState c.db "trade_sync").getD 0 < r.blockNumber := by
  have h : violatesSync (runIndexer env3 5 5 1000 (freshRun db3)).commits = true := rfl
  rcases List.any_eq_true.mp h with ⟨c, hc, h2⟩
  rcases List.any_eq_true.mp h2 with ⟨r, hr, h3⟩
  exact ⟨c, hc, r, hr, of_decide_eq_true h3⟩

/-- A trade persisted by a checkpoint commit never exceeds the committed
`trade_sync` cursor. -/
def GoodCheckpoints (cs : List CommitRec) : Prop :=
  ∀ c ∈ cs, c.checkpoint = true →
    ∃ v, getSyncState c.db "trade_sync" = some v ∧ ∀ r ∈ c.db.trades, r.blockNumber ≤ v

theorem getSyncState_set (db : DBData) (key : String) (v : ℕ) :
    getSyncState (setSyncStateData db key v) key = some v := by
  simp only [getSyncState, setSyncStateData]
  rw [Whale.find_setSyncW]
  rfl

theorem insertTrade_mem (db : DBData) (t : TradeRow) :
    ∀ r ∈ (insertTrade db t).2.trades, r ∈ db.trades ∨ r.blockNumber = t.blockNumber := by
  intro r hr
  simp only [insertTrade] at hr
  split at hr
  · exact Or.inl hr
  · rcases List.mem_append.mp hr with h | h
    · exact Or.inl h
    · right
      rw [List.mem_singleton.mp h]

theorem upsertMarket_trades (db : DBData) (cid : String) (yes no : Option ℕ) :
    (upsertMarketIdx db cid yes no).2.trades = db.trades := by
  unfold upsertMarketIdx
  split <;> rfl

theorem upsertMarket_syncState (db : DBData) (cid : String) (yes no : Option ℕ) :
    (upsertMarketIdx db cid yes no).2.syncState = db.syncState := by
  unfold upsertMarketIdx
  split <;> rfl

theorem processTrade_spec (e : Env) (rs : RunState) (d : DecodedLog) :
    (∀ r ∈ (processTrade e rs d).conn.txn.trades,
       r ∈ rs.conn.txn.trades ∨ r.blockNumber = d.blockNumber) ∧
    (∀ c ∈ (processTrade e rs d).commits, c ∈ rs.commits ∨ c.checkpoint = false) ∧
    (processTrade e rs d).processed = rs.processed ++ [d] := by
  simp only [processTrade]
  cases hfm : fetchMarketByTokenId rs.conn.txn (determineTradeDetails d).tokenId with
  | some m =>
    refine ⟨?_, fun c hc => Or.inl hc, by trivial⟩
    intro r hr
    rcases insertTrade_mem _ _ r hr with h | h
    · exact Or.inl h
    · exact Or.inr h
  | none =>
    by_cases hcontains : rs.discovered.contains (determineTradeDetails d).tokenId
    · simp only [hcontains, if_true]
      exact ⟨fun r hr => Or.inl hr, fun c hc => Or.inl hc, by trivial⟩
    · simp only [hcontains, if_false]
      simp only [discoverStep]
      cases ho : e.oracle (determineTradeDetails d).tokenId with
      | none => exact ⟨fun r hr => Or.inl hr, fun c hc => Or.inl hc, by trivial⟩
      | some g =>
        by_cases hg : g.conditionId = ""
        · simp only [hg, if_true]
          exact ⟨fun r hr => Or.inl hr, fun c hc => Or.inl hc, by trivial⟩
        · simp only [hg, if_false]
          refine ⟨?_, ?_, by trivial⟩
          · intro r hr
            rcases insertTrade_mem _ _ r hr with h | h
            · rw [upsertMarket_trades] at h
              exact Or.inl h
            · exact Or.inr h
          · intro c hc
            rcases List.mem_append.mp hc with h | h
            · exact Or.inl h
            · exact Or.inr (by rw [List.mem_singleton.mp h])

theorem fold_processTrade_spec (e : Env) (b : ℕ) :
    ∀ ls : List DecodedLog, (∀ l ∈ ls, l.blockNumber = b) →
    ∀ rs : RunState, (∀ r ∈ rs.conn.txn.trades, r.blockNumber ≤ b) →
    GoodCheckpoints rs.commits →
    (∀ r ∈ (ls.foldl (fun rs l => processTrade e rs l) rs).conn.txn.trades,
        r.blockNumber ≤ b) ∧
    GoodCheckpoints (ls.foldl (fun rs l => processTrade e rs l) rs).commits := by
  intro ls
  induction ls with
  | nil => intro _ rs h1 h2; exact ⟨h1, h2⟩
  | cons l tl ih =>
    intro hbl rs h1 h2
    simp only [List.foldl_cons]
    refine ih (fun x hx => hbl x (List.mem_cons_of_mem l hx)) _ ?_ ?_
    · intro r hr
      rcases (processTrade_spec e rs l).1 r hr with h | h
      · exact h1 r h
      · rw [h, hbl l (List.mem_cons_self l tl)]
    · intro c hc hck
      rcases (processTrade_spec e rs l).2.1 c hc with h | h
      · exact h2 c h hck
      · rw [h] at hck
        cases hck

theorem processBlock_spec (e : Env) (logs : List DecodedLog) (b : ℕ) (rs : RunState)
    (h1 : ∀ r ∈ rs.conn.txn.trades, r.blockNumber < b)
    (h2 : GoodCheckpoints rs.commits) :
    (∀ r ∈ (processBlock e logs rs b).conn.txn.trades, r.blockNumber < b + 1) ∧
    GoodCheckpoints (processBlock e logs rs b).commits := by
  have hfold := fold_processTrade_spec e b (logs.filter (fun l => l.blockNumber == b))
    (fun l hl => eq_of_beq (List.mem_filter.mp hl).2)
    rs (fun r hr => le_of_lt (h1 r hr)) h2
  simp only [processBlock, checkpoint]
  constructor
  · intro r hr
    exact Nat.lt_succ_of_le (hfold.1 r hr)
  · intro c hc hck
    rcases List.mem_append.mp hc with h | h
    · exact hfold.2 c h hck
    · rw [List.mem_singleton.mp h]
      exact ⟨b, getSyncState_set _ _ _, fun r hr => hfold.1 r hr⟩

theorem fold_processBlock_spec (e : Env) (logs : List DecodedLog) :
    ∀ (n cur : ℕ) (rs : RunState),
    (∀ r ∈ rs.conn.txn.trades, r.blockNumber < cur) → GoodCheckpoints rs.commits →
    (∀ r ∈ ((List.range' cur n).foldl (processBlock e logs) rs).conn.txn.trades,
        r.blockNumber < cur + n) ∧
    GoodCheckpoints ((List.range' cur n).foldl (processBlock e logs) rs).commits := by
  intro n
  induction n with
  | zero =>
    intro cur rs h1 h2
    exact ⟨fun r hr => by simpa using h1 r hr, h2⟩
  | succ n ih =>
    intro cur rs h1 h2
    rw [List.range'_succ]
    simp only [List.foldl_cons]
    have hblock := processBlock_spec e logs cur rs h1 h2
    have hrest := ih (cur + 1) _ hblock.1 hblock.2
    exact ⟨fun r hr => by have := hrest.1 r hr; omega, hrest.2⟩

theorem processBatch_spec (e : Env) (rs : RunState) (cur bend : ℕ) (hc : cur ≤ bend + 1)
    (h1 : ∀ r ∈ rs.conn.txn.trades, r.blockNumber < cur)
    (h2 : GoodCheckpoints rs.commits) :
    (∀ r ∈ (processBatch e rs cur bend).conn.txn.trades, r.blockNumber < bend + 1) ∧
    GoodCheckpoints (processBatch e rs cur bend).commits := by
  unfold processBatch
  cases hf : fetchLogsWithRetry (e.rpc cur) (logsRange e.chain cur bend) with
  | none => exact ⟨fun r hr => lt_of_lt_of_le (h1 r hr) hc, h2⟩
  | some logs =>
    have hfold := fold_processBlock_spec e logs (bend + 1 - cur) cur rs h1 h2
    have heq : cur + (bend + 1 - cur) = bend + 1 := by omega
    rw [heq] at hfold
    exact hfold

theorem runAux_spec (e : Env) (bs : ℕ) (hbs : 1 ≤ bs) :
    ∀ (gas toB cur : ℕ) (rs : RunState),
    (∀ r ∈ rs.conn.txn.trades, r.blockNumber < cur) → GoodCheckpoints rs.commits →
    GoodCheckpoints (runIndexerAux e bs gas cur toB rs).commits := by
  intro gas
  induction gas with
  | zero => intro toB cur rs _ h2; exact h2
  | succ g ih =>
    intro toB cur rs h1 h2
    rw [runIndexerAux]
    by_cases hcur : cur ≤ toB
    · rw [if_pos hcur]
      exact ih toB _ _
        (processBatch_spec e rs cur _ (by omega) h1 h2).1
        (processBatch_spec e rs cur _ (by omega) h1 h2).2
    · rw [if_neg hcur]
      exact h2

/-- **C3 (amended)**: `insert_trade` defers its commit, so a block's trades
land together with the cursor advance in the per-block
`set_sync_state(conn, "trade_sync", block)` transaction: at every
checkpoint commit of an indexer run started on a database whose trades lie
below the scan start, `trade_sync` is committed and is ≥ the blockNumber of
every trade persisted by that commit.  (The after-EVERY-commit form of the
claim is refuted by `indexer_c3_counterexample`: discovery's
`upsert_market` commits mid-block.) -/
theorem indexer_checkpoint_commit_invariant (e : Env) (fromB toB bs : ℕ) (db0 : DBData)
    (hbs : 1 ≤ bs)
    (hinit : ∀ r ∈ db0.trades, r.blockNumber < fromB) :
    GoodCheckpoints (runIndexer e fromB toB bs (freshRun db0)).commits := by
  unfold runIndexer
  exact runAux_spec e bs hbs _ toB fromB _ hinit (fun c hc => by cases hc)

theorem indexer_c3_witness :
    GoodCheckpoints (runIndexer env3 5 5 1000 (freshRun emptyDB)).commits :=
  indexer_checkpoint_commit_invariant env3 5 5 1000 emptyDB (by decide)
    (fun r hr => by simp [emptyDB] at hr)

/-- C4 scenario: two blocks, batch size 1; every fetch attempt for the batch
starting at block 1 fails, the batch starting at block 2 succeeds. -/
def env4 : Env :=
  { chain := fun b => if b = 1 then [mkLog "u1" 1 11] else [],
    rpc := fun s _ => decide (s ≠ 1),
    blockTs := fun b => b,
    oracle := fun _ => none,
    calcIds := fun _ _ => none }

/-- **C4 counterexample**: after the completed run over `[1, 2]`, the
`trade_sync` checkpoint has passed over block 1 (cursor = 2) although block
1's OrderFilled log was never fetched nor submitted to the
decode-and-persist step (the batch was skipped after its 3 fetch attempts
failed). -/
theorem indexer_c4_counterexample :
    getSyncState (runIndexer env4 1 2 1 (freshRun emptyDB)).conn.committed "trade_sync"
      = some 2 ∧
    (runIndexer env4 1 2 1 (freshRun emptyDB)).processed = [] ∧
    env4.chain 1 ≠ [] :=
  ⟨rfl, rfl, by decide⟩

theorem fetchAux_isSome (ok : ℕ → Bool) (logs : List DecodedLog) :
    ∀ fuel i, (fetchWithRetryAux ok logs fuel i).isSome = true ↔
      ∃ j, j < fuel ∧ ok (i + j) = true := by
  intro fuel
  induction fuel with
  | zero =>
    intro i
    simp [fetchWithRetryAux]
  | succ f ih =>
    intro i
    rw [fetchWithRetryAux]
    by_cases h : ok i = true
    · rw [if_pos h]
      simp only [Option.isSome_some, true_iff]
      exact ⟨0, by omega, by simpa using h⟩
    · rw [if_neg h]
      rw [ih (i + 1)]
      constructor
      · rintro ⟨j, hj, hok⟩
        exact ⟨j + 1, by omega, by rw [show i + (j + 1) = i + 1 + j by omega]; exact hok⟩
      · rintro ⟨j, hj, hok⟩
        cases j with
        | zero => simp only [Nat.add_zero] at hok; exact absurd hok h
        | succ j' =>
          exact ⟨j', by omega, by rw [show i + 1 + j' = i + (j' + 1) by omega]; exact hok⟩

theorem fetchAux_some_eq (ok : ℕ → Bool) (logs : List DecodedLog) :
    ∀ fuel i res, fetchWithRetryAux ok logs fuel i = some res → res = logs := by
  intro fuel
  induction fuel with
  | zero => intro i res h; simp [fetchWithRetryAux] at h
  | succ f ih =>
    intro i res h
    rw [fetchWithRetryAux] at h
    by_cases hok : ok i = true
    · rw [if_pos hok] at h
      exact (Option.some_inj.mp h).symm
    · rw [if_neg hok] at h
      exact ih _ _ h

/-- Every log of every block of `[fromB, toB]` was submitted to
`process_trade` at least once. -/
def ProcessedAll (e : Env) (fromB toB : ℕ) (rs : RunState) : Prop :=
  ∀ b, fromB ≤ b → b ≤ toB → ∀ l ∈ e.chain b, l ∈ rs.processed

/-- At every checkpoint commit, every log of every block of `[fromB, v]` had
already been submitted to `process_trade` when the cursor `v` was committed:
no block is passed over by a checkpoint while its logs are unprocessed. -/
def CheckpointsCover (e : Env) (fromB : ℕ) (cs : List CommitRec) : Prop :=
  ∀ c ∈ cs, c.checkpoint = true →
    ∃ v, getSyncState c.db "trade_sync" = some v ∧
      ∀ b, fromB ≤ b → b ≤ v → ∀ l ∈ e.chain b, l ∈ c.processed

theorem fold_processTrade_processed (e : Env) :
    ∀ (ls : List DecodedLog) (rs : RunState),
      (∀ l₀ ∈ rs.processed, l₀ ∈ (ls.foldl (fun rs l => processTrade e rs l) rs).processed) ∧
      (∀ l ∈ ls, l ∈ (ls.foldl (fun rs l => processTrade e rs l) rs).processed) := by
  intro ls
  induction ls with
  | nil => intro rs; exact ⟨fun l₀ h => h, fun l h => absurd h (List.not_mem_nil l)⟩
  | cons x xs ih =>
    intro rs
    simp only [List.foldl_cons]
    have hx : (processTrade e rs x).processed = rs.processed ++ [x] :=
      (processTrade_spec e rs x).2.2
    constructor
    · intro l₀ h
      apply (ih (processTrade e rs x)).1
      rw [hx]
      exact List.mem_append.mpr (Or.inl h)
    · intro l hl
      rcases List.mem_cons.mp hl with h | h
      · apply (ih (processTrade e rs x)).1
        rw [hx]
        exact List.mem_append.mpr (Or.inr (by rw [h]; exact List.mem_singleton.mpr rfl))
      · exact (ih _).2 l h

theorem fold_processTrade_commits (e : Env) :
    ∀ (ls : List DecodedLog) (rs : RunState),
      ∀ c ∈ (ls.foldl (fun rs l => processTrade e rs l) rs).commits,
        c ∈ rs.commits ∨ c.checkpoint = false := by
  intro ls
  induction ls with
  | nil => intro rs c hc; exact Or.inl hc
  | cons x xs ih =>
    intro rs c hc
    simp only [List.foldl_cons] at hc
    rcases ih (processTrade e rs x) c hc with h | h
    · exact (processTrade_spec e rs x).2.1 c h
    · exact Or.inr h

theorem processBlock_processed (e : Env) (logs : List DecodedLog) (b : ℕ) (rs : RunState) :
    (∀ l₀ ∈ rs.processed, l₀ ∈ (processBlock e logs rs b).processed) ∧
    (∀ l ∈ logs, l.blockNumber = b → l ∈ (processBlock e logs rs b).processed) := by
  simp only [processBlock, checkpoint]
  constructor
  · exact fun l₀ h => (fold_processTrade_processed e _ rs).1 l₀ h
  · intro l hl hb
    exact (fold_processTrade_processed e _ rs).2 l (List.mem_filter.mpr ⟨hl, by simp [hb]⟩)

theorem fold_processBlock_processed (e : Env) (fromB : ℕ) (logs : List DecodedLog) :
    ∀ (n cur : ℕ) (rs : RunState),
    (∀ b, cur ≤ b → b < cur + n → ∀ l ∈ e.chain b, l ∈ logs) →
    (∀ b, ∀ l ∈ e.chain b, l.blockNumber = b) →
    (∀ b, fromB ≤ b → b < cur → ∀ l ∈ e.chain b, l ∈ rs.processed) →
    CheckpointsCover e fromB rs.commits →
    fromB ≤ cur →
    (∀ b, fromB ≤ b → b < cur + n → ∀ l ∈ e.chain b,
        l ∈ ((List.range' cur n).foldl (processBlock e logs) rs).processed) ∧
    CheckpointsCover e fromB ((List.range' cur n).foldl (processBlock e logs) rs).commits := by
  intro n
  induction n with
  | zero =>
    intro cur rs _ _ hpre hcc _
    exact ⟨fun b hb1 hb2 => hpre b hb1 (by omega), hcc⟩
  | succ n ih =>
    intro cur rs hcov hwf hpre hcc hle
    rw [List.range'_succ]
    simp only [List.foldl_cons]
    have hpre1 : ∀ b, fromB ≤ b → b < cur + 1 → ∀ l ∈ e.chain b,
        l ∈ (processBlock e logs rs cur).processed := by
      intro b hb1 hb2 l hl
      by_cases hbc : b < cur
      · exact (processBlock_processed e logs cur rs).1 l (hpre b hb1 hbc l hl)
      · have hbe : b = cur := by omega
        rw [hbe] at hl
        exact (processBlock_processed e logs cur rs).2 l
          (hcov cur (le_refl cur) (by omega) l hl) (hwf cur l hl)
    have hcc1 : CheckpointsCover e fromB (processBlock e logs rs cur).commits := by
      intro c hc hck
      simp only [processBlock, checkpoint] at hc
      rcases List.mem_append.mp hc with h | h
      · rcases fold_processTrade_commits e _ rs c h with h2 | h2
        · exact hcc c h2 hck
        · rw [h2] at hck
          cases hck
      · rw [List.mem_singleton.mp h]
        refine ⟨cur, getSyncState_set _ _ _, ?_⟩
        intro b hb1 hb2 l hl
        have := hpre1 b hb1 (by omega) l hl
        simpa [processBlock, checkpoint] using this
    have hrest := ih (cur + 1) _ (fun b hb1 hb2 => hcov b (by omega) (by omega))
      hwf hpre1 hcc1 (by omega)
    exact ⟨fun b hb1 hb2 => hrest.1 b hb1 (by omega), hrest.2⟩

theorem processBatch_processed (e : Env) (fromB : ℕ) (rs : RunState) (cur bend : ℕ)
    (hc : cur ≤ bend + 1) (hle : fromB ≤ cur)
    (hwf : ∀ b, ∀ l ∈ e.chain b, l.blockNumber = b)
    (hrpc : ∃ i, i < 3 ∧ e.rpc cur i = true)
    (hpre : ∀ b, fromB ≤ b → b < cur → ∀ l ∈ e.chain b, l ∈ rs.processed)
    (hcc : CheckpointsCover e fromB rs.commits) :
    (∀ b, fromB ≤ b → b < bend + 1 → ∀ l ∈ e.chain b,
        l ∈ (processBatch e rs cur bend).processed) ∧
    CheckpointsCover e fromB (processBatch e rs cur bend).commits := by
  unfold processBatch
  cases hf : fetchLogsWithRetry (e.rpc cur) (logsRange e.chain cur bend) with
  | none =>
    exfalso
    have : (fetchLogsWithRetry (e.rpc cur) (logsRange e.chain cur bend)).isSome = true := by
      rw [fetchLogsWithRetry, fetchAux_isSome]
      rcases hrpc with ⟨i, hi, hoki⟩
      exact ⟨i, hi, by simpa using hoki⟩
    rw [hf] at this
    cases this
  | some logs =>
    have hlogs : logs = logsRange e.chain cur bend :=
      fetchAux_some_eq (e.rpc cur) (logsRange e.chain cur bend) 3 0 logs hf
    have hcov : ∀ b, cur ≤ b → b < cur + (bend + 1 - cur) → ∀ l ∈ e.chain b, l ∈ logs := by
      intro b hb1 hb2 l hl
      rw [hlogs]
      unfold logsRange
      refine List.mem_bind.mpr ⟨b, ?_, hl⟩
      rw [List.mem_range']
      exact ⟨b - cur, by omega, by omega⟩
    have hfold := fold_processBlock_processed e fromB logs (bend + 1 - cur) cur rs
      hcov hwf hpre hcc hle
    have heq : cur + (bend + 1 - cur) = bend + 1 := by omega
    rw [heq] at hfold
    exact hfold

theorem runAux_processed (e : Env) (bs fromB : ℕ) (hbs : 1 ≤ bs)
    (hwf : ∀ b, ∀ l ∈ e.chain b, l.blockNumber = b)
    (hrpc : ∀ s, ∃ i, i < 3 ∧ e.rpc s i = true) :
    ∀ (gas toB cur : ℕ) (rs : RunState),
    toB + 1 - cur ≤ gas → fromB ≤ cur →
    (∀ b, fromB ≤ b → b < cur → ∀ l ∈ e.chain b, l ∈ rs.processed) →
    CheckpointsCover e fromB rs.commits →
    (∀ b, fromB ≤ b → b ≤ toB → ∀ l ∈ e.chain b,
        l ∈ (runIndexerAux e bs gas cur toB rs).processed) ∧
    CheckpointsCover e fromB (runIndexerAux e bs gas cur toB rs).commits := by
  intro gas
  induction gas with
  | zero =>
    intro toB cur rs hgas hle hpre hcc
    exact ⟨fun b hb1 hb2 => hpre b hb1 (by omega), hcc⟩
  | succ g ih =>
    intro toB cur rs hgas hle hpre hcc
    rw [runIndexerAux]
    by_cases hcur : cur ≤ toB
    · rw [if_pos hcur]
      have hminle : min (cur + bs - 1) toB ≤ toB := min_le_right _ _
      have hcurle : cur ≤ min (cur + bs - 1) toB + 1 := by
        rcases Nat.le_total (cur + bs - 1) toB with h | h
        · rw [min_eq_left h]; omega
        · rw [min_eq_right h]; omega
      have hgas2 : toB + 1 - (min (cur + bs - 1) toB + 1) ≤ g := by
        rcases Nat.le_total (cur + bs - 1) toB with h | h
        · rw [min_eq_left h]; omega
        · rw [min_eq_right h]; omega
      have hbatch := processBatch_processed e fromB rs cur (min (cur + bs - 1) toB)
        hcurle hle hwf (hrpc cur) hpre hcc
      have := ih toB (min (cur + bs - 1) toB + 1) _ hgas2 (le_trans hle hcurle)
        hbatch.1 hbatch.2
      exact this
    · rw [if_neg hcur]
      exact ⟨fun b hb1 hb2 => hpre b hb1 (by omega), hcc⟩

/-- **C4 (amended)**: `fetch_logs_with_retry` succeeds iff one of its (up to)
3 attempts succeeds, and then returns exactly the range's logs; and whenever
every batch fetch of the run succeeds within its 3 attempts, the completed
run submits every OrderFilled log of `[fromB, toB]` to the
decode-and-persist step at least once, and no `trade_sync` checkpoint
commit passes over a block whose logs were not yet submitted.  (Without the
fetch-success hypothesis the property fails: a batch whose 3 attempts all
fail is skipped and later checkpoints pass over it —
`indexer_c4_counterexample`.) -/
theorem indexer_at_least_once (e : Env) (fromB toB bs : ℕ) (db0 : DBData)
    (hbs : 1 ≤ bs)
    (hwf : ∀ b, ∀ l ∈ e.chain b, l.blockNumber = b)
    (hrpc : ∀ s, ∃ i, i < 3 ∧ e.rpc s i = true) :
    ProcessedAll e fromB toB (runIndexer e fromB toB bs (freshRun db0)) ∧
    CheckpointsCover e fromB (runIndexer e fromB toB bs (freshRun db0)).commits ∧
    ∀ (ok : ℕ → Bool) (logs : List DecodedLog),
      ((fetchLogsWithRetry ok logs).isSome = true ↔ ∃ i, i < 3 ∧ ok i = true) ∧
      ∀ res, fetchLogsWithRetry ok logs = some res → res = logs := by
  have h := runAux_processed e bs fromB hbs hwf hrpc (toB + 1 - fromB) toB fromB (freshRun db0)
    (le_refl _) (le_refl _)
    (fun b hb1 hb2 l hl => absurd hb2 (by omega))
    (fun c hc => by cases hc)
  exact ⟨h.1, h.2, fun ok logs =>
    ⟨by rw [fetchLogsWithRetry, fetchAux_isSome]; simp,
     fun res hres => fetchAux_some_eq ok logs 3 0 res hres⟩⟩

/-- An environment with an empty chain and reliable RPC. -/
def envW : Env :=
  { chain := fun _ => [], rpc := fun _ _ => true, blockTs := fun _ => 0,
    oracle := fun _ => none, calcIds := fun _ _ => none }

theorem indexer_c4_witness :
    ProcessedAll envW 1 1 (runIndexer envW 1 1 1 (freshRun emptyDB)) ∧
    CheckpointsCover envW 1 (runIndexer envW 1 1 1 (freshRun emptyDB)).commits :=
  ⟨(indexer_at_least_once envW 1 1 1 emptyDB (by decide)
      (fun b l hl => absurd hl (List.not_mem_nil l))
      (fun s => ⟨0, by decide, rfl⟩)).1,
   (indexer_at_least_once envW 1 1 1 emptyDB (by decide)
      (fun b l hl => absurd hl (List.not_mem_nil l))
      (fun s => ⟨0, by decide, rfl⟩)).2.1⟩

/-- C5 scenario: token 100 trades in blocks 1 and 2, token 200 in block 3.
Gamma answers the token-100 lookup with a market whose stored token ids do
not contain 100, and the token-200 lookup with a market whose NO token is
100 (the token-id calculation fails, so Gamma's ids are stored as-is). -/
def env5 : Env :=
  { chain := fun b =>
      if b = 1 then [mkLog "t1" 1 100]
      else if b = 2 then [mkLog "t2" 2 100]
      else if b = 3 then [mkLog "t3" 3 200] else [],
    rpc := fun _ _ => true,
    blockTs := fun b => b,
    oracle := fun t =>
      if t = 100 then
        some { conditionId := "cT", negRisk := false, yesTokenId := some 11, noTokenId := some 12 }
      else if t = 200 then
        some { conditionId := "cU", negRisk := false, yesTokenId := some 200, noTokenId := some 100 }
      else none,
    calcIds := fun _ _ => none }

/-- **C5 counterexample**: over the same `[1, 3]` range and the same chain
and Gamma data, the first run persists the trades of blocks 1 and 3 (block
2's trade is dropped by the `discovered_token_ids` cache after the failed
resolution of token 100), but the second run — for which token 100 now
resolves through the block-3 market — also inserts block 2's trade: the
Trade rows of run-twice differ from run-once in count and content. -/
theorem indexer_c5_counterexample :
    (runIndexer env5 1 3 1000 (freshRun emptyDB)).conn.committed.trades.map
        (fun r => (r.txHash, r.blockNumber)) = [("t1", 1), ("t3", 3)] ∧
    (runIndexer env5 1 3 1000
        (freshRun (runIndexer env5 1 3 1000 (freshRun emptyDB)).conn.committed)
      ).conn.committed.trades.map
        (fun r => (r.txHash, r.blockNumber)) = [("t1", 1), ("t3", 3), ("t2", 2)] :=
  ⟨rfl, rfl⟩

/-! ### Hypotheses under which run-twice idempotence is provable.

The counterexample exploits a Gamma API answer whose stored market does not
contain the looked-up token.  The amended statement assumes the API is
consistent: markets are determined by their conditionId, a market saved for
token `t` contains `t`, and every token mentioned by a saved market has a
savable Gamma answer of its own. -/

def projM (m : MarketRowIdx) : ℕ × String × Option ℕ × Option ℕ :=
  (m.id, m.conditionId, m.yesTokenId, m.noTokenId)

/-- The Gamma lookup for `t` yields nothing `process_market` would save. -/
def Unsavable (e : Env) (t : ℕ) : Prop :=
  e.oracle t = none ∨ ∃ g, e.oracle t = some g ∧ g.conditionId = ""

/-- Every stored market row comes from some savable Gamma answer. -/
def Coherent (e : Env) (db : DBData) : Prop :=
  ∀ m ∈ db.markets, ∃ u g, e.oracle u = some g ∧ g.conditionId ≠ "" ∧
    g.conditionId = m.conditionId ∧
    m.yesTokenId = (tokensOf e.calcIds g).1 ∧ m.noTokenId = (tokensOf e.calcIds g).2

def Resolvable (db : DBData) (t : ℕ) : Prop :=
  (fetchMarketByTokenId db t).isSome = true

def keyIn (ts : List TradeRow) (l : DecodedLog) : Prop :=
  (ts.any (fun r => r.txHash == l.txHash && r.logIndex == l.logIndex)) = true

/-- Stored token ids are a function of the conditionId alone. -/
def DetCond (e : Env) : Prop :=
  ∀ t u g g', e.oracle t = some g → e.oracle u = some g' →
    g.conditionId = g'.conditionId → tokensOf e.calcIds g = tokensOf e.calcIds g'

/-- A market saved for token `t` contains `t`. -/
def SelfCont (e : Env) : Prop :=
  ∀ t g, e.oracle t = some g → g.conditionId ≠ "" →
    (tokensOf e.calcIds g).1 = some t ∨ (tokensOf e.calcIds g).2 = some t

/-- Every token a saved market mentions is itself savable. -/
def TokenClosed (e : Env) : Prop :=
  ∀ u g, e.oracle u = some g → g.conditionId ≠ "" →
    ∀ t, ((tokensOf e.calcIds g).1 = some t ∨ (tokensOf e.calcIds g).2 = some t) →
      ∃ g', e.oracle t = some g' ∧ g'.conditionId ≠ ""

theorem opt_or_self {α : Type} (x : Option α) : x.or x = x := by cases x <;> rfl

theorem opt_or_eq_of_eq {α : Type} (x y : Option α) (h : x = y) : x.or y = y := by
  rw [h]
  exact opt_or_self y

theorem coherent_of_projEq (e : Env) (db db' : DBData)
    (h : db'.markets.map projM = db.markets.map projM)
    (hc : Coherent e db) : Coherent e db' := by
  intro m' hm'
  have hmem : projM m' ∈ db.markets.map projM := by
    rw [← h]
    exact List.mem_map_of_mem projM hm'
  rcases List.mem_map.mp hmem with ⟨m, hm, he⟩
  simp only [projM, Prod.mk.injEq] at he
  rcases hc m hm with ⟨u, g, h1, h2, h3, h4, h5⟩
  exact ⟨u, g, h1, h2, h3.trans he.2.1, he.2.2.1.symm.trans h4, he.2.2.2.symm.trans h5⟩

theorem ids_eq_of_projEq (db db' : DBData)
    (h : db'.markets.map projM = db.markets.map projM) :
    db'.markets.map (fun m => m.id) = db.markets.map (fun m => m.id) := by
  have h2 := congrArg (List.map (fun p : ℕ × String × Option ℕ × Option ℕ => p.1)) h
  simpa [List.map_map, Function.comp, projM] using h2

theorem resolvable_iff (db : DBData) (t : ℕ) :
    Resolvable db t ↔
      ∃ p ∈ db.markets.map projM, p.2.2.1 = some t ∨ p.2.2.2 = some t := by
  unfold Resolvable fetchMarketByTokenId
  rw [List.find?_isSome]
  constructor
  · rintro ⟨m, hm, hp⟩
    refine ⟨projM m, List.mem_map_of_mem projM hm, ?_⟩
    rcases (Bool.or_eq_true _ _).mp hp with h | h
    · exact Or.inl (eq_of_beq h)
    · exact Or.inr (eq_of_beq h)
  · rintro ⟨p, hp, hor⟩
    rcases List.mem_map.mp hp with ⟨m, hm, he⟩
    refine ⟨m, hm, ?_⟩
    rw [← he] at hor
    simp only [projM] at hor
    rcases hor with h | h
    · simp [h]
    · simp [h]

theorem resolvable_of_projEq (db db' : DBData)
    (h : db'.markets.map projM = db.markets.map projM) (t : ℕ)
    (hr : Resolvable db t) : Resolvable db' t := by
  rw [resolvable_iff, h]
  exact (resolvable_iff db t).mp hr

theorem insertTrade_markets_proj (db : DBData) (t : TradeRow) :
    (insertTrade db t).2.markets.map projM = db.markets.map projM := by
  simp only [insertTrade]
  split
  · rfl
  · by_cases hm0 : t.marketId = 0
    · simp [hm0]
    · simp only [hm0, if_false]
      rw [List.map_map]
      refine List.map_congr_left ?_
      intro m _
      simp only [Function.comp_apply]
      by_cases h : (m.id == t.marketId) = true
      · rw [if_pos h]
        rfl
      · rw [if_neg h]

theorem insertTrade_eq_of_dup (db : DBData) (t : TradeRow)
    (h : (db.trades.any (fun r => r.txHash == t.txHash && r.logIndex == t.logIndex)) = true) :
    insertTrade db t = (none, db) := by
  simp only [insertTrade, h, if_true]

theorem keyIn_insertTrade (db : DBData) (t : TradeRow) (l : DecodedLog)
    (h : keyIn db.trades l) : keyIn (insertTrade db t).2.trades l := by
  simp only [insertTrade]
  split
  · exact h
  · rcases List.any_eq_true.mp h with ⟨r, hr, hp⟩
    exact List.any_eq_true.mpr ⟨r, List.mem_append.mpr (Or.inl hr), hp⟩

theorem keyIn_insertTrade_self (db : DBData) (d : DecodedLog) (mid : ℕ) (outc : String)
    (ts : ℕ) : keyIn (insertTrade db (tradeRowOf d mid outc ts)).2.trades d := by
  simp only [insertTrade]
  split
  · next h => exact h
  · refine List.any_eq_true.mpr ⟨_, List.mem_append.mpr (Or.inr (List.mem_singleton.mpr rfl)), ?_⟩
    simp [tradeRowOf]

theorem mem_le_maxMarketId (db : DBData) : ∀ m ∈ db.markets, m.id ≤ maxMarketId db :=
  Store.mem_le_foldl_max (fun m => m.id) db.markets 0

/-- Under coherence, condition-determinism and unique row ids, the COALESCE
update of `upsert_market` rewrites every row to itself, so the upsert either
leaves the market rows extensionally unchanged or appends the new row. -/
theorem upsert_markets_shape (e : Env) (db : DBData) (u₀ : ℕ) (g : GammaMarket)
    (hdet : DetCond e) (hg : e.oracle u₀ = some g)
    (hc : Coherent e db) (hnd : (db.markets.map (fun m => m.id)).Nodup) :
    (upsertMarketIdx db g.conditionId (tokensOf e.calcIds g).1
        (tokensOf e.calcIds g).2).2.markets.map projM = db.markets.map projM ∨
    (upsertMarketIdx db g.conditionId (tokensOf e.calcIds g).1
        (tokensOf e.calcIds g).2).2.markets = db.markets ++
      [{ id := maxMarketId db + 1, conditionId := g.conditionId,
         yesTokenId := (tokensOf e.calcIds g).1, noTokenId := (tokensOf e.calcIds g).2,
         tradeCount := 0 }] := by
  cases hf : db.markets.find? (fun m => m.conditionId == g.conditionId) with
  | none =>
    right
    simp [upsertMarketIdx, hf]
  | some m =>
    left
    simp only [upsertMarketIdx, hf]
    rw [List.map_map]
    refine List.map_congr_left ?_
    intro r hr
    simp only [Function.comp_apply]
    by_cases hid : (r.id == m.id) = true
    · rw [if_pos hid]
      have hrm : r = m :=
        List.inj_on_of_nodup_map hnd hr (List.mem_of_find?_eq_some hf) (eq_of_beq hid)
      have hpred := List.find?_some hf
      have hcnd : r.conditionId = g.conditionId := by
        rw [hrm]
        exact eq_of_beq hpred
      rcases hc r hr with ⟨u', g', hg', hgc', hcond, hy, hn⟩
      have htk : tokensOf e.calcIds g = tokensOf e.calcIds g' :=
        hdet u₀ u' g g' hg hg' ((hcond.trans hcnd).symm)
      have hyes : ((tokensOf e.calcIds g).1).or r.yesTokenId = r.yesTokenId :=
        opt_or_eq_of_eq _ _ (by rw [htk, ← hy])
      have hno : ((tokensOf e.calcIds g).2).or r.noTokenId = r.noTokenId :=
        opt_or_eq_of_eq _ _ (by rw [htk, ← hn])
      simp [projM, hyes, hno]
    · rw [if_neg hid]

theorem upsert_trades_syncState (db : DBData) (cid : String) (yes no : Option ℕ) :
    (upsertMarketIdx db cid yes no).2.trades = db.trades ∧
    (upsertMarketIdx db cid yes no).2.syncState = db.syncState :=
  ⟨upsertMarket_trades db cid yes no, upsertMarket_syncState db cid yes no⟩

/-- After a savable discovery upsert, the discovered token resolves (given
the market was not already resolvable the insert branch must have run, or
the update branch exposes an already matching row). -/
theorem upsert_resolvable (e : Env) (db : DBData) (u₀ tok : ℕ) (g : GammaMarket)
    (hdet : DetCond e) (hg : e.oracle u₀ = some g)
    (hc : Coherent e db) (hnd : (db.markets.map (fun m => m.id)).Nodup)
    (hcontain : (tokensOf e.calcIds g).1 = some tok ∨ (tokensOf e.calcIds g).2 = some tok) :
    Resolvable (upsertMarketIdx db g.conditionId (tokensOf e.calcIds g).1
        (tokensOf e.calcIds g).2).2 tok := by
  cases hf : db.markets.find? (fun m => m.conditionId == g.conditionId) with
  | none =>
    rw [resolvable_iff]
    simp only [upsertMarketIdx, hf]
    rw [List.map_append]
    exact ⟨_, List.mem_append.mpr
      (Or.inr (List.mem_map_of_mem projM (List.mem_singleton.mpr rfl))), hcontain⟩
  | some m =>
    -- the stored row for this conditionId already carries the token
    have hm := List.mem_of_find?_eq_some hf
    have hpred := List.find?_some hf
    have hcnd : m.conditionId = g.conditionId := eq_of_beq hpred
    rcases hc m hm with ⟨u', g', hg', hgc', hcond, hy, hn⟩
    have htk : tokensOf e.calcIds g = tokensOf e.calcIds g' :=
      hdet u₀ u' g g' hg hg' ((hcond.trans hcnd).symm)
    have hold : Resolvable db tok := by
      rw [resolvable_iff]
      refine ⟨projM m, List.mem_map_of_mem projM hm, ?_⟩
      simp only [projM]
      rw [hy, hn, ← htk]
      exact hcontain
    rcases upsert_markets_shape e db u₀ g hdet hg hc hnd with hsh | hsh
    · exact resolvable_of_projEq db _ hsh tok hold
    · -- contradiction with hf by shape: the insert case has find? none; but we
      -- can also conclude directly: the appended-markets database still
      -- contains every old row
      rw [resolvable_iff, hsh, List.map_append]
      rcases (resolvable_iff db tok).mp hold with ⟨p, hp, hor⟩
      exact ⟨p, List.mem_append.mpr (Or.inl hp), hor⟩

theorem nodup_of_projEq (db db' : DBData)
    (h : db'.markets.map projM = db.markets.map projM)
    (hnd : (db.markets.map (fun m => m.id)).Nodup) :
    (db'.markets.map (fun m => m.id)).Nodup := by
  rw [ids_eq_of_projEq db db' h]
  exact hnd

theorem nodup_append_singleton {α : Type} (l : List α) (a : α) (hl : l.Nodup)
    (ha : a ∉ l) : (l ++ [a]).Nodup := by
  induction l with
  | nil => simp
  | cons x xs ih =>
    simp only [List.cons_append, List.nodup_cons] at hl ⊢
    refine ⟨?_, ih hl.2 (fun hmem => ha (List.mem_cons_of_mem x hmem))⟩
    intro hmem
    rcases List.mem_append.mp hmem with h | h
    · exact hl.1 h
    · exact ha (by rw [← List.mem_singleton.mp h]; exact List.mem_cons_self x xs)

theorem discoverStep_unsavable (e : Env) (rs : RunState) (tok : ℕ)
    (hu : Unsavable e tok) : discoverStep e rs tok = (none, rs) := by
  rcases hu with h | ⟨g, hg, hge⟩
  · simp [discoverStep, h]
  · simp [discoverStep, hg, hge]

theorem discoverStep_savable (e : Env) (rs : RunState) (tok : ℕ) (g : GammaMarket)
    (hdet : DetCond e)
    (hg : e.oracle tok = some g) (hgc : ¬ g.conditionId = "")
    (hself : SelfCont e)
    (hc : Coherent e rs.conn.txn)
    (hnd : (rs.conn.txn.markets.map (fun m => m.id)).Nodup) :
    (∃ fm, (discoverStep e rs tok).1 = some fm) ∧
    (discoverStep e rs tok).2.conn.txn.trades = rs.conn.txn.trades ∧
    Coherent e (discoverStep e rs tok).2.conn.txn ∧
    ((discoverStep e rs tok).2.conn.txn.markets.map (fun m => m.id)).Nodup ∧
    Resolvable (discoverStep e rs tok).2.conn.txn tok ∧
    (∀ t, Resolvable rs.conn.txn t → Resolvable (discoverStep e rs tok).2.conn.txn t) ∧
    (discoverStep e rs tok).2.discovered = rs.discovered ∧
    (discoverStep e rs tok).2.processed = rs.processed := by
  have hshape := upsert_markets_shape e rs.conn.txn tok g hdet hg hc hnd
  simp only [discoverStep, hg, hgc, if_false]
  refine ⟨⟨_, rfl⟩, upsertMarket_trades _ _ _ _, ?_, ?_, ?_, ?_, by trivial, by trivial⟩
  · rcases hshape with hsh | hsh
    · exact coherent_of_projEq e _ _ hsh hc
    · intro m hm
      rw [hsh] at hm
      rcases List.mem_append.mp hm with h | h
      · exact hc m h
      · rw [List.mem_singleton.mp h]
        exact ⟨tok, g, hg, hgc, rfl, rfl, rfl⟩
  · rcases hshape with hsh | hsh
    · exact nodup_of_projEq _ _ hsh hnd
    · rw [hsh, List.map_append]
      refine nodup_append_singleton _ _ hnd ?_
      intro hmem
      rcases List.mem_map.mp hmem with ⟨m, hm, hid⟩
      have := mem_le_maxMarketId rs.conn.txn m hm
      simp only at hid
      omega
  · exact upsert_resolvable e rs.conn.txn tok tok g hdet hg hc hnd (hself tok g hg hgc)
  · intro t ht
    rcases hshape with hsh | hsh
    · exact resolvable_of_projEq _ _ hsh t ht
    · rw [resolvable_iff]
      rw [hsh, List.map_append]
      rcases (resolvable_iff rs.conn.txn t).mp ht with ⟨p, hp, hor⟩
      exact ⟨p, List.mem_append.mpr (Or.inl hp), hor⟩

/-- Run-1 invariant: market rows are oracle-derived with unique ids, the
discovery cache only holds resolvable-or-unsavable tokens, and every
submitted log was either persisted or carries a token Gamma cannot save. -/
def Inv1 (e : Env) (rs : RunState) : Prop :=
  Coherent e rs.conn.txn ∧
  (rs.conn.txn.markets.map (fun m => m.id)).Nodup ∧
  (∀ t ∈ rs.discovered, Resolvable rs.conn.txn t ∨ Unsavable e t) ∧
  (∀ l ∈ rs.processed,
      keyIn rs.conn.txn.trades l ∨ Unsavable e (determineTradeDetails l).tokenId)

theorem processTrade_inv1 (e : Env) (hdet : DetCond e) (hself : SelfCont e)
    (rs : RunState) (d : DecodedLog) (h : Inv1 e rs) : Inv1 e (processTrade e rs d) := by
  obtain ⟨hcoh, hnd, hcache, hsat⟩ := h
  simp only [processTrade]
  cases hfm : fetchMarketByTokenId rs.conn.txn (determineTradeDetails d).tokenId with
  | some m =>
    refine ⟨coherent_of_projEq e _ _ (insertTrade_markets_proj _ _) hcoh,
      nodup_of_projEq _ _ (insertTrade_markets_proj _ _) hnd, ?_, ?_⟩
    · intro t ht
      rcases hcache t ht with hres | hu
      · exact Or.inl (resolvable_of_projEq _ _ (insertTrade_markets_proj _ _) t hres)
      · exact Or.inr hu
    · intro l hl
      rcases List.mem_append.mp hl with hold | hnew
      · rcases hsat l hold with hk | hu
        · exact Or.inl (keyIn_insertTrade _ _ _ hk)
        · exact Or.inr hu
      · rw [List.mem_singleton.mp hnew]
        exact Or.inl (keyIn_insertTrade_self _ _ _ _ _)
  | none =>
    by_cases hcon : rs.discovered.contains (determineTradeDetails d).tokenId
    · simp only [hcon, if_true]
      refine ⟨hcoh, hnd, hcache, ?_⟩
      intro l hl
      rcases List.mem_append.mp hl with hold | hnew
      · exact hsat l hold
      · rw [List.mem_singleton.mp hnew]
        have hmem : (determineTradeDetails d).tokenId ∈ rs.discovered := by
          simpa using hcon
        rcases hcache _ hmem with hres | hu
        · exfalso
          unfold Resolvable at hres
          rw [hfm] at hres
          cases hres
        · exact Or.inr hu
    · simp only [hcon, if_false]
      cases ho : e.oracle (determineTradeDetails d).tokenId with
      | none =>
        rw [discoverStep_unsavable e _ _ (Or.inl ho)]
        refine ⟨hcoh, hnd, ?_, ?_⟩
        · intro t ht
          rcases List.mem_append.mp ht with h2 | h2
          · exact hcache t h2
          · rw [List.mem_singleton.mp h2]
            exact Or.inr (Or.inl ho)
        · intro l hl
          rcases List.mem_append.mp hl with hold | hnew
          · exact hsat l hold
          · rw [List.mem_singleton.mp hnew]
            exact Or.inr (Or.inl ho)
      | some g =>
        by_cases hgc : g.conditionId = ""
        · rw [discoverStep_unsavable e _ _ (Or.inr ⟨g, ho, hgc⟩)]
          refine ⟨hcoh, hnd, ?_, ?_⟩
          · intro t ht
            rcases List.mem_append.mp ht with h2 | h2
            · exact hcache t h2
            · rw [List.mem_singleton.mp h2]
              exact Or.inr (Or.inr ⟨g, ho, hgc⟩)
          · intro l hl
            rcases List.mem_append.mp hl with hold | hnew
            · exact hsat l hold
            · rw [List.mem_singleton.mp hnew]
              exact Or.inr (Or.inr ⟨g, ho, hgc⟩)
        · have hsav := discoverStep_savable e
            { rs with processed := rs.processed ++ [d] }
            (determineTradeDetails d).tokenId g hdet ho hgc hself hcoh hnd
          obtain ⟨⟨fm, hfm1⟩, htr, hcoh', hnd', hres', hmono, hdisc, hproc⟩ := hsav
          rw [hfm1]
          refine ⟨coherent_of_projEq e _ _ (insertTrade_markets_proj _ _) hcoh',
            nodup_of_projEq _ _ (insertTrade_markets_proj _ _) hnd', ?_, ?_⟩
          · intro t ht
            rw [hdisc] at ht
            rcases List.mem_append.mp ht with h2 | h2
            · rcases hcache t h2 with hres | hu
              · exact Or.inl (resolvable_of_projEq _ _ (insertTrade_markets_proj _ _) t
                  (hmono t hres))
              · exact Or.inr hu
            · rw [List.mem_singleton.mp h2]
              exact Or.inl (resolvable_of_projEq _ _ (insertTrade_markets_proj _ _) _ hres')
          · intro l hl
            rw [hproc] at hl
            rcases List.mem_append.mp hl with hold | hnew
            · rcases hsat l hold with hk | hu
              · refine Or.inl (keyIn_insertTrade _ _ _ ?_)
                rw [htr]
                exact hk
              · exact Or.inr hu
            · rw [List.mem_singleton.mp hnew]
              exact Or.inl (keyIn_insertTrade_self _ _ _ _ _)

theorem checkpoint_inv1 (e : Env) (rs : RunState) (b : ℕ) (h : Inv1 e rs) :
    Inv1 e (checkpoint rs b) := by
  obtain ⟨h1, h2, h3, h4⟩ := h
  exact ⟨h1, h2, h3, h4⟩

theorem fold_processTrade_inv1 (e : Env) (hdet : DetCond e) (hself : SelfCont e) :
    ∀ (ls : List DecodedLog) (rs : RunState), Inv1 e rs →
      Inv1 e (ls.foldl (fun rs l => processTrade e rs l) rs) := by
  intro ls
  induction ls with
  | nil => intro rs h; exact h
  | cons x xs ih =>
    intro rs h
    simp only [List.foldl_cons]
    exact ih _ (processTrade_inv1 e hdet hself rs x h)

theorem processBlock_inv1 (e : Env) (hdet : DetCond e) (hself : SelfCont e)
    (logs : List DecodedLog) (rs : RunState) (b : ℕ) (h : Inv1 e rs) :
    Inv1 e (processBlock e logs rs b) :=
  checkpoint_inv1 e _ b (fold_processTrade_inv1 e hdet hself _ rs h)

theorem fold_processBlock_inv1 (e : Env) (hdet : DetCond e) (hself : SelfCont e)
    (logs : List DecodedLog) :
    ∀ (l : List ℕ) (rs : RunState), Inv1 e rs →
      Inv1 e (l.foldl (processBlock e logs) rs) := by
  intro l
  induction l with
  | nil => intro rs h; exact h
  | cons b bs ih =>
    intro rs h
    simp only [List.foldl_cons]
    exact ih _ (processBlock_inv1 e hdet hself logs rs b h)

theorem processBatch_inv1 (e : Env) (hdet : DetCond e) (hself : SelfCont e)
    (rs : RunState) (cur bend : ℕ) (h : Inv1 e rs) :
    Inv1 e (processBatch e rs cur bend) := by
  unfold processBatch
  cases hf : fetchLogsWithRetry (e.rpc cur) (logsRange e.chain cur bend) with
  | none => exact h
  | some logs => exact fold_processBlock_inv1 e hdet hself logs _ rs h

theorem runAux_inv1 (e : Env) (bs : ℕ) (hdet : DetCond e) (hself : SelfCont e) :
    ∀ (gas toB cur : ℕ) (rs : RunState), Inv1 e rs →
      Inv1 e (runIndexerAux e bs gas cur toB rs) := by
  intro gas
  induction gas with
  | zero => intro toB cur rs h; exact h
  | succ g ih =>
    intro toB cur rs h
    rw [runIndexerAux]
    by_cases hcur : cur ≤ toB
    · rw [if_pos hcur]
      exact ih toB _ _ (processBatch_inv1 e hdet hself rs cur _ h)
    · rw [if_neg hcur]
      exact h

theorem processBlock_sync (e : Env) (logs : List DecodedLog) (rs : RunState) (b : ℕ) :
    (processBlock e logs rs b).conn.committed = (processBlock e logs rs b).conn.txn := rfl

theorem fold_processBlock_sync (e : Env) (logs : List DecodedLog) :
    ∀ (l : List ℕ) (rs : RunState), rs.conn.committed = rs.conn.txn →
      (l.foldl (processBlock e logs) rs).conn.committed
        = (l.foldl (processBlock e logs) rs).conn.txn := by
  intro l
  induction l with
  | nil => intro rs h; exact h
  | cons b bs ih =>
    intro rs _
    simp only [List.foldl_cons]
    exact ih _ (processBlock_sync e logs rs b)

theorem processBatch_sync (e : Env) (rs : RunState) (cur bend : ℕ)
    (h : rs.conn.committed = rs.conn.txn) :
    (processBatch e rs cur bend).conn.committed = (processBatch e rs cur bend).conn.txn := by
  unfold processBatch
  cases hf : fetchLogsWithRetry (e.rpc cur) (logsRange e.chain cur bend) with
  | none => exact h
  | some logs => exact fold_processBlock_sync e logs _ rs h

theorem runAux_sync (e : Env) (bs : ℕ) :
    ∀ (gas toB cur : ℕ) (rs : RunState), rs.conn.committed = rs.conn.txn →
      (runIndexerAux e bs gas cur toB rs).conn.committed
        = (runIndexerAux e bs gas cur toB rs).conn.txn := by
  intro gas
  induction gas with
  | zero => intro toB cur rs h; exact h
  | succ g ih =>
    intro toB cur rs h
    rw [runIndexerAux]
    by_cases hcur : cur ≤ toB
    · rw [if_pos hcur]
      exact ih toB _ _ (processBatch_sync e rs cur _ h)
    · rw [if_neg hcur]
      exact h

/-- Under coherence and token-closure, an unsavable token never resolves. -/
theorem unresolvable_of_unsavable (e : Env) (db : DBData) (t : ℕ)
    (hclosed : TokenClosed e) (hc : Coherent e db) (hu : Unsavable e t) :
    fetchMarketByTokenId db t = none := by
  cases hfm : fetchMarketByTokenId db t with
  | none => rfl
  | some m =>
    exfalso
    have hres : Resolvable db t := by
      unfold Resolvable
      rw [hfm]
      rfl
    rcases (resolvable_iff db t).mp hres with ⟨p, hp, hor⟩
    rcases List.mem_map.mp hp with ⟨m', hm', he⟩
    rcases hc m' hm' with ⟨u, g, hg, hgc, hcond, hy, hn⟩
    rw [← he] at hor
    simp only [projM] at hor
    rw [hy, hn] at hor
    rcases hclosed u g hg hgc t hor with ⟨g', hg', hgc'⟩
    rcases hu with h | ⟨g'', hg'', hge⟩
    · rw [h] at hg'
      cases hg'
    · rw [hg''] at hg'
      cases hg'
      exact hgc' hge

/-- Run-2 invariant relative to the run-1 trades `T`: the open transaction's
trades never move away from `T`. -/
def Inv2 (e : Env) (T : List TradeRow) (rs : RunState) : Prop :=
  rs.conn.txn.trades = T ∧
  Coherent e rs.conn.txn ∧
  (rs.conn.txn.markets.map (fun m => m.id)).Nodup

theorem processTrade_inv2 (e : Env) (hdet : DetCond e) (hself : SelfCont e)
    (hclosed : TokenClosed e) (T : List TradeRow) (rs : RunState) (d : DecodedLog)
    (hH : keyIn T d ∨ Unsavable e (determineTradeDetails d).tokenId)
    (h : Inv2 e T rs) : Inv2 e T (processTrade e rs d) := by
  obtain ⟨htr, hcoh, hnd⟩ := h
  simp only [processTrade]
  cases hfm : fetchMarketByTokenId rs.conn.txn (determineTradeDetails d).tokenId with
  | some m =>
    have hk : keyIn T d := by
      rcases hH with hk | hu
      · exact hk
      · exfalso
        have hnone := unresolvable_of_unsavable e rs.conn.txn _ hclosed hcoh hu
        rw [hfm] at hnone
        cases hnone
    have hdup : (rs.conn.txn.trades.any (fun r =>
        r.txHash == (tradeRowOf d m.id (outcomeOf m.yesTokenId m.noTokenId
          (determineTradeDetails d).tokenId) (e.blockTs d.blockNumber)).txHash &&
        r.logIndex == (tradeRowOf d m.id (outcomeOf m.yesTokenId m.noTokenId
          (determineTradeDetails d).tokenId) (e.blockTs d.blockNumber)).logIndex)) = true := by
      rw [htr]
      exact hk
    dsimp only
    rw [insertTrade_eq_of_dup _ _ hdup]
    exact ⟨htr, hcoh, hnd⟩
  | none =>
    by_cases hcon : rs.discovered.contains (determineTradeDetails d).tokenId
    · simp only [hcon, if_true]
      exact ⟨htr, hcoh, hnd⟩
    · simp only [hcon, if_false]
      cases ho : e.oracle (determineTradeDetails d).tokenId with
      | none =>
        rw [discoverStep_unsavable e _ _ (Or.inl ho)]
        exact ⟨htr, hcoh, hnd⟩
      | some g =>
        by_cases hgc : g.conditionId = ""
        · rw [discoverStep_unsavable e _ _ (Or.inr ⟨g, ho, hgc⟩)]
          exact ⟨htr, hcoh, hnd⟩
        · have hk : keyIn T d := by
            rcases hH with hk | hu
            · exact hk
            · exfalso
              rcases hu with h2 | ⟨g', hg', hge⟩
              · rw [h2] at ho
                cases ho
              · rw [hg'] at ho
                cases ho
                exact hgc hge
          have hsav := discoverStep_savable e { rs with processed := rs.processed ++ [d] }
            (determineTradeDetails d).tokenId g hdet ho hgc hself hcoh hnd
          obtain ⟨⟨fm, hfm1⟩, htr', hcoh', hnd', _, _, _, _⟩ := hsav
          rw [hfm1]
          have hdup2 : ((discoverStep e { rs with processed := rs.processed ++ [d] }
              (determineTradeDetails d).tokenId).2.conn.txn.trades.any (fun r =>
                r.txHash == (tradeRowOf d fm.id (outcomeOf fm.yesTokenId fm.noTokenId
                  (determineTradeDetails d).tokenId) (e.blockTs d.blockNumber)).txHash &&
                r.logIndex == (tradeRowOf d fm.id (outcomeOf fm.yesTokenId fm.noTokenId
                  (determineTradeDetails d).tokenId) (e.blockTs d.blockNumber)).logIndex))
              = true := by
            rw [htr']
            show (rs.conn.txn.trades.any (fun r =>
              r.txHash == d.txHash && r.logIndex == d.logIndex)) = true
            rw [htr]
            exact hk
          dsimp only
          rw [insertTrade_eq_of_dup _ _ hdup2]
          exact ⟨htr'.trans htr, hcoh', hnd'⟩

theorem fold_processTrade_inv2 (e : Env) (hdet : DetCond e) (hself : SelfCont e)
    (hclosed : TokenClosed e) (T : List TradeRow) :
    ∀ (ls : List DecodedLog) (rs : RunState),
      (∀ l ∈ ls, keyIn T l ∨ Unsavable e (determineTradeDetails l).tokenId) →
      Inv2 e T rs → Inv2 e T (ls.foldl (fun rs l => processTrade e rs l) rs) := by
  intro ls
  induction ls with
  | nil => intro rs _ h; exact h
  | cons x xs ih =>
    intro rs hH h
    simp only [List.foldl_cons]
    exact ih _ (fun l hl => hH l (List.mem_cons_of_mem x hl))
      (processTrade_inv2 e hdet hself hclosed T rs x (hH x (List.mem_cons_self x xs)) h)

theorem checkpoint_inv2 (e : Env) (T : List TradeRow) (rs : RunState) (b : ℕ)
    (h : Inv2 e T rs) : Inv2 e T (checkpoint rs b) := by
  obtain ⟨h1, h2, h3⟩ := h
  exact ⟨h1, h2, h3⟩

theorem processBlock_inv2 (e : Env) (hdet : DetCond e) (hself : SelfCont e)
    (hclosed : TokenClosed e) (T : List TradeRow) (logs : List DecodedLog)
    (rs : RunState) (b : ℕ)
    (hH : ∀ l ∈ logs, keyIn T l ∨ Unsavable e (determineTradeDetails l).tokenId)
    (h : Inv2 e T rs) : Inv2 e T (processBlock e logs rs b) :=
  checkpoint_inv2 e T _ b (fold_processTrade_inv2 e hdet hself hclosed T _ rs
    (fun l hl => hH l (List.mem_of_mem_filter hl)) h)

theorem fold_processBlock_inv2 (e : Env) (hdet : DetCond e) (hself : SelfCont e)
    (hclosed : TokenClosed e) (T : List TradeRow) (logs : List DecodedLog)
    (hH : ∀ l ∈ logs, keyIn T l ∨ Unsavable e (determineTradeDetails l).tokenId) :
    ∀ (l : List ℕ) (rs : RunState), Inv2 e T rs →
      Inv2 e T (l.foldl (processBlock e logs) rs) := by
  intro l
  induction l with
  | nil => intro rs h; exact h
  | cons b bs ih =>
    intro rs h
    simp only [List.foldl_cons]
    exact ih _ (processBlock_inv2 e hdet hself hclosed T logs rs b hH h)

theorem processBatch_inv2 (e : Env) (hdet : DetCond e) (hself : SelfCont e)
    (hclosed : TokenClosed e) (T : List TradeRow) (rs : RunState) (cur bend : ℕ)
    (hH : ∀ l ∈ logsRange e.chain cur bend,
      keyIn T l ∨ Unsavable e (determineTradeDetails l).tokenId)
    (h : Inv2 e T rs) : Inv2 e T (processBatch e rs cur bend) := by
  unfold processBatch
  cases hf : fetchLogsWithRetry (e.rpc cur) (logsRange e.chain cur bend) with
  | none => exact h
  | some logs =>
    have hlogs : logs = logsRange e.chain cur bend :=
      fetchAux_some_eq (e.rpc cur) (logsRange e.chain cur bend) 3 0 logs hf
    exact fold_processBlock_inv2 e hdet hself hclosed T logs
      (fun l hl => hH l (hlogs ▸ hl)) _ rs h

theorem runAux_inv2 (e : Env) (bs fromB toB : ℕ) (hdet : DetCond e) (hself : SelfCont e)
    (hclosed : TokenClosed e) (T : List TradeRow)
    (hS : ∀ b, fromB ≤ b → b ≤ toB → ∀ l ∈ e.chain b,
      keyIn T l ∨ Unsavable e (determineTradeDetails l).tokenId) :
    ∀ (gas cur : ℕ) (rs : RunState), fromB ≤ cur →
      Inv2 e T rs → Inv2 e T (runIndexerAux e bs gas cur toB rs) := by
  intro gas
  induction gas with
  | zero => intro cur rs _ h; exact h
  | succ g ih =>
    intro cur rs hle h
    rw [runIndexerAux]
    by_cases hcur : cur ≤ toB
    · rw [if_pos hcur]
      have hcurle : cur ≤ min (cur + bs - 1) toB + 1 := by
        rcases Nat.le_total (cur + bs - 1) toB with h2 | h2
        · rw [min_eq_left h2]; omega
        · rw [min_eq_right h2]; omega
      have hminle : min (cur + bs - 1) toB ≤ toB := min_le_right _ _
      refine ih _ _ (by omega) (processBatch_inv2 e hdet hself hclosed T rs cur _ ?_ h)
      intro l hl
      unfold logsRange at hl
      rcases List.mem_bind.mp hl with ⟨b', hb', hlb⟩
      rcases List.mem_range'.mp hb' with ⟨i, hi, heq⟩
      refine hS b' (by omega) ?_ l hlb
      omega
    · rw [if_neg hcur]
      exact h

/-- **C5 (amended)**: a repeat run over the same `[fromB, toB]` yields Trade
rows identical in count and content: the second run's inserts all hit the
`(tx_hash, log_index)` unique key, whose IntegrityError is swallowed.  This
holds for a first run started on an empty database, provided every batch
fetch succeeds within its 3 attempts, logs carry their true block numbers,
and the Gamma API is consistent: stored token ids are a function of the
conditionId, a market saved for token `t` contains `t`, and every token a
saved market mentions is savable.  (Without the consistency hypotheses the
property fails — `indexer_c5_counterexample` — because the
`discovered_token_ids` cache drops a trade in the first run that the second
run can resolve through a market discovered later.) -/
theorem indexer_run_twice_idempotent (e : Env) (fromB toB bs : ℕ)
    (hbs : 1 ≤ bs)
    (hwf : ∀ b, ∀ l ∈ e.chain b, l.blockNumber = b)
    (hrpc : ∀ s, ∃ i, i < 3 ∧ e.rpc s i = true)
    (hdet : DetCond e) (hself : SelfCont e) (hclosed : TokenClosed e) :
    (runIndexer e fromB toB bs
        (freshRun (runIndexer e fromB toB bs (freshRun emptyDB)).conn.committed)
      ).conn.committed.trades
      = (runIndexer e fromB toB bs (freshRun emptyDB)).conn.committed.trades ∧
    ∀ (db : DBData) (t : TradeRow),
      (db.trades.any (fun r => r.txHash == t.txHash && r.logIndex == t.logIndex)) = true →
      insertTrade db t = (none, db) := by
  have hInv1 : Inv1 e (runIndexer e fromB toB bs (freshRun emptyDB)) := by
    unfold runIndexer
    exact runAux_inv1 e bs hdet hself _ toB fromB _
      ⟨fun m hm => absurd hm (List.not_mem_nil m), List.nodup_nil,
       fun t ht => absurd ht (List.not_mem_nil t),
       fun l hl => absurd hl (List.not_mem_nil l)⟩
  have hsync1 : (runIndexer e fromB toB bs (freshRun emptyDB)).conn.committed
      = (runIndexer e fromB toB bs (freshRun emptyDB)).conn.txn := by
    unfold runIndexer
    exact runAux_sync e bs _ toB fromB _ rfl
  have hproc1 := runAux_processed e bs fromB hbs hwf hrpc (toB + 1 - fromB) toB fromB
    (freshRun emptyDB) (le_refl _) (le_refl _)
    (fun b hb1 hb2 l hl => absurd hb2 (by omega))
    (fun c hc => by cases hc)
  have hS : ∀ b, fromB ≤ b → b ≤ toB → ∀ l ∈ e.chain b,
      keyIn (runIndexer e fromB toB bs (freshRun emptyDB)).conn.committed.trades l ∨
      Unsavable e (determineTradeDetails l).tokenId := by
    intro b hb1 hb2 l hl
    have hmem : l ∈ (runIndexer e fromB toB bs (freshRun emptyDB)).processed := by
      unfold runIndexer
      exact hproc1.1 b hb1 hb2 l hl
    have hsat := hInv1.2.2.2 l hmem
    rw [hsync1]
    exact hsat
  have hInv2 : Inv2 e (runIndexer e fromB toB bs (freshRun emptyDB)).conn.committed.trades
      (runIndexer e fromB toB bs
        (freshRun (runIndexer e fromB toB bs (freshRun emptyDB)).conn.committed)) := by
    have hinit : Inv2 e (runIndexer e fromB toB bs (freshRun emptyDB)).conn.committed.trades
        (freshRun (runIndexer e fromB toB bs (freshRun emptyDB)).conn.committed) := by
      refine ⟨rfl, ?_, ?_⟩
      · rw [hsync1]
        exact hInv1.1
      · rw [hsync1]
        exact hInv1.2.1
    show Inv2 e _ (runIndexerAux e bs (toB + 1 - fromB) fromB toB _)
    exact runAux_inv2 e bs fromB toB hdet hself hclosed _ hS _ fromB _ (le_refl _) hinit
  have hsync2 : (runIndexer e fromB toB bs
      (freshRun (runIndexer e fromB toB bs (freshRun emptyDB)).conn.committed)).conn.committed
      = (runIndexer e fromB toB bs
      (freshRun (runIndexer e fromB toB bs (freshRun emptyDB)).conn.committed)).conn.txn := by
    unfold runIndexer
    exact runAux_sync e bs _ toB fromB _ rfl
  refine ⟨?_, fun db t h => insertTrade_eq_of_dup db t h⟩
  rw [hsync2]
  exact hInv2.1

theorem indexer_c5_witness :
    (runIndexer envW 1 1 1
        (freshRun (runIndexer envW 1 1 1 (freshRun emptyDB)).conn.committed)
      ).conn.committed.trades
      = (runIndexer envW 1 1 1 (freshRun emptyDB)).conn.committed.trades :=
  (indexer_run_twice_idempotent envW 1 1 1 (by decide)
    (fun b l hl => absurd hl (List.not_mem_nil l))
    (fun s => ⟨0, by decide, rfl⟩)
    (fun t u g g' hg => by cases hg)
    (fun t g hg => by cases hg)
    (fun u g hg => by cases hg)).1

end Indexer
